import Mathlib

/-!
Shallow embedding of the chromatic PSF fitting core of the Spectractor
repository (file spectractor/extractor/psf.py), together with theorems
settling the specification claims about it.

Conventions of the embedding:
* numpy float arrays are modelled with exact rationals where the code only
  uses field arithmetic and comparisons, and with real numbers where the
  code uses transcendental functions (power with real exponent, exp, pi);
* a numpy array indexed by a dispersion column is a function Fin Nx -> Q;
* an infinite bound (np.inf or -np.inf) is modelled by the value none of
  an Option Q component, so that comparisons against it are never true,
  exactly as comparisons against an infinity are in the float code;
* the MoffatGauss PSF has the eight parameters
  [amplitude, x_mean, y_mean, gamma, alpha, eta_gauss, stddev, saturation]
  indexed by Fin 8 in this order, as in MoffatGauss.param_names.
-/

namespace Spectractor

/-! ### Legendre polynomials and series evaluation

Model of numpy.polynomial.legendre.legval: the value of a Legendre series
with coefficient list c at a point x.  The polynomials are generated by the
Bonnet recurrence (n+1) P_{n+1}(x) = (2n+1) x P_n(x) - n P_{n-1}(x).
-/

/-- Pair (P_n x, P_{n+1} x) of consecutive Legendre polynomial values. -/
def legPAux : ℕ → ℚ → ℚ × ℚ
  | 0, x => (1, x)
  | n + 1, x =>
      let q := legPAux n x
      (q.2, ((2 * (n + 1) + 1) * x * q.2 - (n + 1) * q.1) / (n + 2))

/-- Value of the degree-n Legendre polynomial at x. -/
def legP (n : ℕ) (x : ℚ) : ℚ := (legPAux n x).1

/-- Value at x of the Legendre series whose coefficient list is c
(model of numpy.polynomial.legendre.legval). -/
def legvalL (x : ℚ) (c : List ℚ) : ℚ :=
  ∑ j ∈ Finset.range c.length, c.getD j 0 * legP j x

/-! ### Bounds

A pair of optional lower and upper bounds for one PSF parameter; none
stands for an infinite bound. -/

/-- One (min, max) bound pair; none models an infinite endpoint. -/
abbrev OBnd : Type := Option ℚ × Option ℚ

/-- Hard clipping of a value against one bound pair, exactly as the two
masked assignments of ChromaticPSF.from_poly_params_to_profile_params do
it: first values v with v <= min are raised to min, then values above max
are lowered to max. -/
def clipHard (b : OBnd) (v : ℚ) : ℚ :=
  let w := match b.1 with
    | some lo => if v ≤ lo then lo else v
    | none => v
  match b.2 with
  | some hi => if hi < w then hi else w
  | none => w

/-- Membership of a value in a bound pair (an infinite endpoint constrains
nothing). -/
def memB (b : OBnd) (v : ℚ) : Prop :=
  (∀ lo ∈ b.1, lo ≤ v) ∧ ∀ hi ∈ b.2, v ≤ hi

/-- Well-formedness of a bound pair: when both endpoints are finite the
lower one is not above the upper one. -/
def wfB : OBnd → Prop
  | (some lo, some hi) => lo ≤ hi
  | _ => True

instance wfB.instDecidable : ∀ b, Decidable (wfB b)
  | (some lo, some hi) => inferInstanceAs (Decidable (lo ≤ hi))
  | (some _, none) => .isTrue trivial
  | (none, some _) => .isTrue trivial
  | (none, none) => .isTrue trivial

/-- Hard bounds of MoffatGauss as set in MoffatGauss.__init__. -/
def moffatGaussBoundsHard : Fin 8 → OBnd :=
  ![(some 0, none), (none, none), (none, none), (some (1/10), none),
    (some (11/10), some 10), (some (-1), some 0), (some (1/10), none),
    (some 0, none)]

/-! ### ChromaticPSF polynomial layout -/

/-- Polynomial degree of the PSF parameter with index j:
ChromaticPSF.set_polynomial_degrees gives every parameter the degree deg
except saturation (index 7) which gets 0. -/
def degOf (deg : ℕ) (j : ℕ) : ℕ := if j = 7 then 0 else deg

/-- Offset of the Legendre coefficient block of parameter k inside the
non-amplitude tail of a poly_params vector: the running shift accumulated
by the loop of from_poly_params_to_profile_params over the parameters
before k (amplitude, index 0, contributes nothing). -/
def blockOff (deg : ℕ) (k : ℕ) : ℕ :=
  ∑ j ∈ Finset.Ico 1 k, (degOf deg j + 1)

/-- The i-th point of np.linspace(-1, 1, Nx).  For Nx = 1 the rational
division by zero yields -1, matching numpy which returns [-1.] there. -/
def pixelAt (Nx : ℕ) (i : ℕ) : ℚ := -1 + 2 * i / ((Nx : ℚ) - 1)

/-- Model of ChromaticPSF.from_poly_params_to_profile_params.  The result
is the Nx x 8 profile table; poly is the flat poly_params vector.  When the
vector is longer than Nx its first Nx entries are the amplitude column and
the Legendre blocks start at offset Nx; otherwise the amplitude column is
set to ones and the blocks are read from the start of the vector, a block
landing outside the vector leaving the zero initialisation in place.  When
applyBounds is true every entry is clipped against bounds k afterwards.
profileRaw is the unclipped expansion, the wrapper below adds the optional
clipping pass. -/
def profileRaw (Nx deg : ℕ) (poly : List ℚ) (i : Fin Nx) (k : Fin 8) : ℚ :=
  if k.val = 0 then
    (if Nx < poly.length then poly.getD i.val 0 else 1)
  else
    if Nx < poly.length then
      legvalL (pixelAt Nx i.val)
        ((poly.drop (Nx + blockOff deg k.val)).take (degOf deg k.val + 1))
    else
      if ((poly.drop (blockOff deg k.val)).take (degOf deg k.val + 1)).length ≠ 0
      then
        legvalL (pixelAt Nx i.val)
          ((poly.drop (blockOff deg k.val)).take (degOf deg k.val + 1))
      else 0

/-- Model of ChromaticPSF.from_poly_params_to_profile_params, see the
comment on profileRaw. -/
def from_poly_params_to_profile_params (Nx deg : ℕ) (bounds : Fin 8 → OBnd)
    (poly : List ℚ) (applyBounds : Bool) : Fin Nx → Fin 8 → ℚ :=
  fun i k =>
    if applyBounds then clipHard (bounds k) (profileRaw Nx deg poly i k)
    else profileRaw Nx deg poly i k

/-! ### Weighted Legendre fit

Model of numpy.polynomial.legendre.legfit(x, y, deg, w): the least squares
problem min over c of the sum of (w i * (y i - sum_j c j * P_j (x i)))^2,
solved through its normal equations with the adjugate formula for the
inverse of the Gram matrix.  This coincides with the numpy result whenever
the weighted design matrix has full column rank; on a singular system the
model returns 0 (numpy would return a minimum-norm solution instead, but no
theorem below relies on that case). -/

/-- Gram matrix of the weighted Legendre least squares system. -/
def legGram (n : ℕ) (xs ws : Fin n → ℚ) (d : ℕ) :
    Matrix (Fin (d + 1)) (Fin (d + 1)) ℚ :=
  fun a b => ∑ i, ws i ^ 2 * legP a.val (xs i) * legP b.val (xs i)

/-- Weighted moment vector of the Legendre least squares system. -/
def legMoment (n : ℕ) (xs ws ys : Fin n → ℚ) (d : ℕ) : Fin (d + 1) → ℚ :=
  fun a => ∑ i, ws i ^ 2 * legP a.val (xs i) * ys i

/-- Coefficients of the weighted Legendre least squares fit. -/
def legfit (n : ℕ) (xs ws ys : Fin n → ℚ) (d : ℕ) : Fin (d + 1) → ℚ :=
  (legGram n xs ws d).det⁻¹ •
    (legGram n xs ws d).adjugate.mulVec (legMoment n xs ws ys d)

/-- Model of ChromaticPSF.from_profile_params_to_poly_params: the raw
amplitude column followed by, for every other parameter in order, the
coefficients of its weighted Legendre fit across the columns, the weights
being the amplitude column itself. -/
def from_profile_params_to_poly_params (Nx deg : ℕ)
    (P : Fin Nx → Fin 8 → ℚ) : List ℚ :=
  ((List.finRange Nx).map fun i => P i 0) ++
    ((List.finRange 8).filter fun k => k.val ≠ 0).flatMap fun k =>
      (List.finRange (degOf deg k.val + 1)).map
        (legfit Nx (fun i => pixelAt Nx i.val) (fun i => P i 0)
          (fun i => P i k) (degOf deg k.val))

/-! ### Amplitude solver of ChromaticPSF1DFitWorkspace.simulate

The linear amplitude sub-problem: per dispersion column x the design vector
M x, the diagonal weight vector W x and the data column are combined into
the scalar Gram entry M^T W M and the raw weighted least squares amplitude,
with the guard branch of the source substituting 0.1 * bgd_std whenever the
Gram entry is not positive.  The matrices M, W and the data are taken as
inputs of the model, exactly as they are inputs of the enclosing workspace
object in the source. -/

/-- Gram entry M[x].T @ W[x] @ M[x] for a diagonal weight column. -/
def gramEntry (Ny : ℕ) (M W : Fin Ny → ℚ) : ℚ := ∑ j, M j * W j * M j

/-- Raw per-column amplitudes of the weighted least squares solve, with the
noise-floor guard of the source on a non-positive Gram entry. -/
def amplitudeRaw (Nx Ny : ℕ) (M W data : Fin Nx → Fin Ny → ℚ)
    (bgdStd : ℚ) : Fin Nx → ℚ :=
  fun x =>
    if 0 < gramEntry Ny (M x) (W x) then
      (∑ j, M x j * (W x j * data x j)) / gramEntry Ny (M x) (W x)
    else (1 / 10) * bgdStd

/-- Diagonal of the amplitude covariance matrix, with the same guard. -/
def covDiag (Nx Ny : ℕ) (M W : Fin Nx → Fin Ny → ℚ) (bgdStd : ℚ) :
    Fin Nx → ℚ :=
  fun x =>
    if 0 < gramEntry Ny (M x) (W x) then (gramEntry Ny (M x) (W x))⁻¹
    else (1 / 10) * bgdStd

/-- Post-hoc repair of the amplitude vector in the positive prior mode:
amplitude_params[amplitude_params < 0] = 0. -/
def positiveClip {n : ℕ} (a : Fin n → ℚ) : Fin n → ℚ :=
  fun x => if a x < 0 then 0 else a x

/-! Post-hoc repair of the amplitude vector in the smooth prior mode.  The
source freezes null_indices = np.where(amplitude_params < 0)[0] and then,
for each such index in increasing order, scans the mutated array to the
right over range(index, min(index + 10, Nx)) and to the left over
range(index, max(0, index - 10), -1), each scan keeping the last value read
and stopping at the first index outside null_indices, and overwrites the
entry with the half sum of the two scan results. -/

/-- Scan of a value sequence: keeps the last read value, stops at the first
index that is not flagged by isNull (matching the break in the source). -/
def scanVal {n : ℕ} (cur : Fin n → ℚ) (isNull : Fin n → Bool) :
    ℚ → List (Fin n) → ℚ
  | v, [] => v
  | _, i :: rest => if isNull i then scanVal cur isNull (cur i) rest else cur i

/-- Indices visited by the rightward scan from x:
range(x, min(x + 10, n)) of the source, in increasing order. -/
def rightIdxs (n : ℕ) (x : Fin n) : List (Fin n) :=
  (List.finRange n).filter fun i => x.val ≤ i.val ∧ i.val < min (x.val + 10) n

/-- Indices visited by the leftward scan from x:
range(x, max(0, x - 10), -1) of the source, in decreasing order; the stop
column max(0, x - 10) itself is never visited. -/
def leftIdxs (n : ℕ) (x : Fin n) : List (Fin n) :=
  ((List.finRange n).filter fun i => x.val - 10 + 1 ≤ i.val ∧ i.val ≤ x.val).reverse

/-- The indices flagged negative before any repair:
np.where(amplitude_params < 0)[0], in increasing order. -/
def nullIdxs {n : ℕ} (a : Fin n → ℚ) : List (Fin n) :=
  (List.finRange n).filter fun i => a i < 0

/-- One iteration of the repair loop of the smooth prior mode. -/
def smoothStep {n : ℕ} (isNull : Fin n → Bool) (cur : Fin n → ℚ)
    (x : Fin n) : Fin n → ℚ :=
  let right := scanVal cur isNull (cur x) (rightIdxs n x)
  let left := scanVal cur isNull (cur x) (leftIdxs n x)
  Function.update cur x ((right + left) / 2)

/-- Post-hoc repair of the amplitude vector in the smooth prior mode. -/
def smoothRepair {n : ℕ} (a : Fin n → ℚ) : Fin n → ℚ :=
  (nullIdxs a).foldl (smoothStep fun i => decide (a i < 0)) a

/-- The five amplitude prior modes of the workspaces. -/
inductive PriorMode | noprior | positive | smooth | psf1d | fixed
deriving DecidableEq

/-- Amplitude vector returned by the simulate method of the 1D workspace in
the three modes that post-process the raw weighted least squares solve
(noprior, positive, smooth).  The psf1d and fixed branches of the source
build different systems (a regularised inverse and a verbatim prior vector)
and are not modelled: the catch-all arm is reached only by them and no
theorem below is about them. -/
def amplitudeParams (Nx Ny : ℕ) (mode : PriorMode)
    (M W data : Fin Nx → Fin Ny → ℚ) (bgdStd : ℚ) : Fin Nx → ℚ :=
  match mode with
  | .positive => positiveClip (amplitudeRaw Nx Ny M W data bgdStd)
  | .smooth => smoothRepair (amplitudeRaw Nx Ny M W data bgdStd)
  | _ => amplitudeRaw Nx Ny M W data bgdStd

/-! ### ChromaticPSF.check_bounds

The method expands the polynomial parameters to profile parameters without
hard clipping and walks the parameter list once, keeping a running state
(in_bounds, penalty, offending names).  For the amplitude it flags entries
below -noise_level; saturation is skipped; for the other parameters an
upper violation block and then a lower violation block each add the summed
violation to the running penalty and then divide the whole running penalty
by the absolute column mean unless np.isclose(mean, 0).  The final penalty
is scaled by Nx * Ny. -/

/-- Model of np.isclose(m, 0) with the default tolerances. -/
def iscloseZero (m : ℚ) : Prop := |m| ≤ 1 / 100000000

instance (m : ℚ) : Decidable (iscloseZero m) := by
  unfold iscloseZero; infer_instance

/-- State of the check_bounds loop: in_bounds flag, running penalty and the
list of offending parameter indices. -/
def CBState : Type := Bool × ℚ × List (Fin 8)

/-- Column mean of a profile parameter, np.mean of the column. -/
def colMean (Nx : ℕ) (p : Fin Nx → ℚ) : ℚ := (∑ i, p i) / (Nx : ℚ)

/-- One iteration of the check_bounds loop over the parameter index k. -/
def checkBoundsStep (Nx : ℕ) (profile : Fin Nx → Fin 8 → ℚ)
    (boundsSoft : Fin 8 → OBnd) (noise : ℚ) (st : CBState) (k : Fin 8) :
    CBState :=
  let p : Fin Nx → ℚ := fun i => profile i k
  if k.val = 0 then
    if ∃ i, p i < -noise then
      (false, st.2.1 + |∑ i with p i < -noise, p i|, st.2.2 ++ [k])
    else st
  else if k.val = 7 then st
  else
    let st1 : CBState :=
      match (boundsSoft k).2 with
      | some hi =>
          if ∃ i, hi < p i then
            let pen := st.2.1 + ∑ i with hi < p i, (p i - hi)
            let pen := if ¬ iscloseZero (colMean Nx p) then
                pen / |colMean Nx p| else pen
            (false, pen, st.2.2 ++ [k])
          else st
      | none => st
    match (boundsSoft k).1 with
    | some lo =>
        if ∃ i, p i < lo then
          let pen := st1.2.1 + ∑ i with p i < lo, (lo - p i)
          let pen := if ¬ iscloseZero (colMean Nx p) then
              pen / |colMean Nx p| else pen
          (false, pen, st1.2.2 ++ [k])
        else st1
    | none => st1

/-- Model of ChromaticPSF.check_bounds.  Returns the in_bounds flag, the
penalty scaled by Nx * Ny and the list of offending parameter indices. -/
def check_bounds (Nx Ny deg : ℕ) (boundsSoft : Fin 8 → OBnd) (poly : List ℚ)
    (noise : ℚ) : CBState :=
  let profile := from_poly_params_to_profile_params Nx deg boundsSoft poly false
  let st := (List.finRange 8).foldl
    (checkBoundsStep Nx profile boundsSoft noise) (true, 0, [])
  (st.1, st.2.1 * (Nx * Ny : ℚ), st.2.2)

/-! ### MoffatGauss.evaluate

The MoffatGauss kernel uses a power with real exponent and an exponential,
so this part of the embedding lives in the real numbers.  A parameter
vector p : Fin 8 -> R is ordered as
[amplitude, x_mean, y_mean, gamma, alpha, eta_gauss, stddev, saturation].
The 1D branch normalises by the Riemann sum of the kernel over the pixel
grid (np.gradient(y)[0] is the first forward difference y 1 - y 0, so the
pixel array must have at least two entries, as in the source where
np.gradient requires it); the 2D branch normalises by the analytic integral
pi * gamma^2 / (alpha - 1) + eta * 2 * pi * stddev^2.  Both branches clip
the result to [0, saturation] via np.clip, that is min (max v 0) sat. -/

/-- Unnormalised MoffatGauss kernel value at a transverse position y.  The
divisions by gamma^2 and 2 * stddev^2 are unguarded in the source, which
propagates inf or NaN through np.clip when gamma or stddev is zero; the
real-number model instead evaluates division by zero to zero, so every
theorem about this function carries gamma and stddev non-zero hypotheses
and speaks only where the model agrees with the float code. -/
noncomputable def mgKernel1D {m : ℕ} (pixels : Fin (m + 2) → ℝ)
    (p : Fin 8 → ℝ) (j : Fin (m + 2)) : ℝ :=
  let rr := (pixels j - p 2) * (pixels j - p 2)
  (1 + rr / (p 3 * p 3)) ^ (-(p 4)) +
    p 5 * Real.exp (-(rr / (2 * p 6 * p 6)))

/-- The grid step np.gradient(pixels)[0] = pixels 1 - pixels 0. -/
def gridStep {m : ℕ} (pixels : Fin (m + 2) → ℝ) : ℝ := pixels 1 - pixels 0

/-- Riemann-sum integral of the kernel over the pixel grid. -/
noncomputable def mgIntegral1D {m : ℕ} (pixels : Fin (m + 2) → ℝ)
    (p : Fin 8 → ℝ) : ℝ :=
  (∑ j, mgKernel1D pixels p j) * gridStep pixels

/-- Kernel renormalised so that its Riemann sum equals the amplitude
(the division is skipped when the integral is zero, as in the source). -/
noncomputable def mgNorm1D {m : ℕ} (pixels : Fin (m + 2) → ℝ)
    (p : Fin 8 → ℝ) (j : Fin (m + 2)) : ℝ :=
  mgKernel1D pixels p j *
    (if mgIntegral1D pixels p ≠ 0 then p 0 / mgIntegral1D pixels p else p 0)

/-- Value returned by the 1D branch of MoffatGauss.evaluate. -/
noncomputable def mgEval1D {m : ℕ} (pixels : Fin (m + 2) → ℝ)
    (p : Fin 8 → ℝ) (j : Fin (m + 2)) : ℝ :=
  min (max (mgNorm1D pixels p j) 0) (p 7)

/-- Analytic normalisation of the 2D branch,
pi * gamma^2 / (alpha - 1) + eta * 2 * pi * stddev^2. -/
noncomputable def mgNorm2D (p : Fin 8 → ℝ) : ℝ :=
  Real.pi * p 3 * p 3 / (p 4 - 1) + p 5 * 2 * Real.pi * p 6 * p 6

/-- Value returned by the 2D branch of MoffatGauss.evaluate; the result is
indexed (j, i) because the source transposes the clipped array.  The
division amplitude / norm is unguarded in the source, so a zero norm makes
the float code propagate inf or NaN through np.clip; the real-number model
evaluates that division to zero instead, so every theorem about this
function carries gamma, stddev and norm non-zero hypotheses and speaks
only where the model agrees with the float code. -/
noncomputable def mgEval2D {nx ny : ℕ} (pixels : Fin 2 → Fin nx → Fin ny → ℝ)
    (p : Fin 8 → ℝ) (j : Fin ny) (i : Fin nx) : ℝ :=
  let rr := (pixels 0 i j - p 1) * (pixels 0 i j - p 1) +
    (pixels 1 i j - p 2) * (pixels 1 i j - p 2)
  let a := (1 + rr / (p 3 * p 3)) ^ (-(p 4)) +
    p 5 * Real.exp (-(rr / (2 * p 6 * p 6)))
  min (max (a * (p 0 / mgNorm2D p)) 0) (p 7)

/-! ### The MoffatGauss object state

The mutable fields of a MoffatGauss instance touched by the methods under
study: the stored parameter vector p, the two bound arrays and
max_half_width.  The bound arrays hold optional rationals (none for an
infinite endpoint); max_half_width is none when it is np.inf, its initial
value in PSF.__init__. -/

structure MoffatGaussState where
  p : Fin 8 → ℝ
  bounds_hard : Fin 8 → OBnd
  bounds_soft : Fin 8 → OBnd
  max_half_width : Option ℚ

/-- Bound array rebuilt by MoffatGauss.apply_max_width_to_bounds from the
current max_half_width value m (2 * np.inf = np.inf explains the map). -/
def moffatBoundsFromMax (m : Option ℚ) : Fin 8 → OBnd :=
  ![(some 0, none), (none, none), (some 0, m.map fun v => 2 * v),
    (some (1 / 10), m), (some (11 / 10), some 10), (some (-1), some 0),
    (some (1 / 10), m), (some 0, none)]

/-- Model of MoffatGauss.apply_max_width_to_bounds: an argument that is not
None replaces max_half_width, then both bound arrays are rebuilt from the
stored max_half_width. -/
def apply_max_width_to_bounds (s : MoffatGaussState) (arg : Option ℚ) :
    MoffatGaussState :=
  let m := match arg with
    | some v => some v
    | none => s.max_half_width
  { s with max_half_width := m,
           bounds_hard := moffatBoundsFromMax m,
           bounds_soft := moffatBoundsFromMax m }

/-- Model of the 1D branch of MoffatGauss.evaluate as a state transformer:
a parameter argument that is not None overwrites the stored vector self.p
before the evaluation, which then always uses self.p. -/
noncomputable def evaluate1D (s : MoffatGaussState) {m : ℕ}
    (pixels : Fin (m + 2) → ℝ) (parg : Option (Fin 8 → ℝ)) :
    (Fin (m + 2) → ℝ) × MoffatGaussState :=
  let q := parg.getD s.p
  (mgEval1D pixels q, { s with p := q })

/-- Model of the 2D branch of MoffatGauss.evaluate as a state transformer. -/
noncomputable def evaluate2D (s : MoffatGaussState) {nx ny : ℕ}
    (pixels : Fin 2 → Fin nx → Fin ny → ℝ) (parg : Option (Fin 8 → ℝ)) :
    (Fin ny → Fin nx → ℝ) × MoffatGaussState :=
  let q := parg.getD s.p
  (mgEval2D pixels q, { s with p := q })

/-- Soft bounds of MoffatGauss as set in MoffatGauss.__init__ (identical to
the hard bounds there). -/
def moffatGaussBoundsSoft : Fin 8 → OBnd := moffatGaussBoundsHard

/-! ### Helper lemmas -/

/-- Clipping against a well-formed bound pair lands inside the pair. -/
theorem memB_clipHard (b : OBnd) (hb : wfB b) (v : ℚ) :
    memB b (clipHard b v) := by
  obtain ⟨lo?, hi?⟩ := b
  cases lo? with
  | none =>
      cases hi? with
      | none => exact ⟨by simp, by simp⟩
      | some hi =>
          refine ⟨by simp, ?_⟩
          intro h hh
          simp only [Option.mem_def, Option.some.injEq] at hh
          subst hh
          simp only [clipHard]
          split_ifs with h1
          · exact le_refl _
          · exact le_of_not_lt h1
  | some lo =>
      cases hi? with
      | none =>
          refine ⟨?_, by simp⟩
          intro l hl
          simp only [Option.mem_def, Option.some.injEq] at hl
          subst hl
          simp only [clipHard]
          split_ifs with h1
          · exact le_refl _
          · exact (not_le.mp h1).le
      | some hi =>
          have hlohi : lo ≤ hi := hb
          constructor
          · intro l hl
            simp only [Option.mem_def, Option.some.injEq] at hl
            subst hl
            simp only [clipHard]
            split_ifs <;> simp_all <;> linarith
          · intro h hh
            simp only [Option.mem_def, Option.some.injEq] at hh
            subst hh
            simp only [clipHard]
            split_ifs <;> simp_all <;> linarith

/-! ### Claim C2 -/

/-- Claim C2: for every polynomial parameter vector, including values far
outside the physical ranges, from_poly_params_to_profile_params with
apply_bounds set returns a profile table whose entries all lie inside the
corresponding (well-formed) hard bound intervals, and the clipping is
exactly the deterministic elementwise clip of the unclipped table, with no
order dependency across parameters. -/
theorem C2_apply_bounds_hard_clip (Nx deg : ℕ) (bounds : Fin 8 → OBnd)
    (poly : List ℚ) (hwf : ∀ k, wfB (bounds k)) :
    (∀ (i : Fin Nx) (k : Fin 8),
        memB (bounds k)
          (from_poly_params_to_profile_params Nx deg bounds poly true i k)) ∧
      from_poly_params_to_profile_params Nx deg bounds poly true =
        fun i k => clipHard (bounds k)
          (from_poly_params_to_profile_params Nx deg bounds poly false i k) := by
  constructor
  · intro i k
    exact memB_clipHard (bounds k) (hwf k) _
  · rfl

/-- Witness for C2 at the MoffatGauss construction-time hard bounds and a
wildly out-of-range concrete polynomial vector. -/
theorem C2_witness :
    (∀ k, wfB (moffatGaussBoundsHard k)) ∧
      memB (moffatGaussBoundsHard 4)
        (from_poly_params_to_profile_params 1 0 moffatGaussBoundsHard
          [-5, 0, 0, -3, 1000, 7, -2, -1] true 0 4) := by
  have hwf : ∀ k, wfB (moffatGaussBoundsHard k) := by
    intro k
    fin_cases k
    · exact trivial
    · exact trivial
    · exact trivial
    · exact trivial
    · show (11 / 10 : ℚ) ≤ 10
      norm_num
    · show (-1 : ℚ) ≤ 0
      norm_num
    · exact trivial
    · exact trivial
  exact ⟨hwf,
    (C2_apply_bounds_hard_clip 1 0 moffatGaussBoundsHard
      [-5, 0, 0, -3, 1000, 7, -2, -1] hwf).1 0 4⟩

/-! ### Claim C8 -/

/-- Claim C8: when the poly_params vector has length at most Nx the
amplitude column of the expanded profile table is all ones and the Legendre
coefficient blocks are read from the start of the vector; when it is
strictly longer than Nx its first Nx entries become the amplitude column
verbatim. -/
theorem C8_amplitude_block (Nx deg : ℕ) (bounds : Fin 8 → OBnd)
    (poly : List ℚ) :
    (poly.length ≤ Nx →
      (∀ i : Fin Nx,
        from_poly_params_to_profile_params Nx deg bounds poly false i 0 = 1) ∧
      ∀ (i : Fin Nx) (k : Fin 8), k.val ≠ 0 →
        blockOff deg k.val < poly.length →
        from_poly_params_to_profile_params Nx deg bounds poly false i k =
          legvalL (pixelAt Nx i.val)
            ((poly.drop (blockOff deg k.val)).take (degOf deg k.val + 1))) ∧
    (Nx < poly.length → ∀ i : Fin Nx,
      from_poly_params_to_profile_params Nx deg bounds poly false i 0 =
        poly.getD i.val 0) := by
  constructor
  · intro hlen
    have hnot : ¬ Nx < poly.length := not_lt.mpr hlen
    constructor
    · intro i
      simp [from_poly_params_to_profile_params, profileRaw, hnot]
    · intro i k hk hblock
      have hpc :
          ¬ ((poly.drop (blockOff deg k.val)).take
              (degOf deg k.val + 1)).length = 0 := by
        simp only [List.length_take, List.length_drop]
        omega
      simp only [from_poly_params_to_profile_params, profileRaw, Bool.false_eq_true,
        if_false, if_neg hk, if_neg hnot, ne_eq, if_pos hpc]
  · intro hlen i
    simp [from_poly_params_to_profile_params, profileRaw, hlen]

/-- Witness for C8 on concrete short and long vectors. -/
theorem C8_witness :
    from_poly_params_to_profile_params 2 0 moffatGaussBoundsHard [3] false 0 0
        = 1 ∧
      from_poly_params_to_profile_params 2 0 moffatGaussBoundsHard [3] false 0 1
        = legvalL (pixelAt 2 0) [3] ∧
      from_poly_params_to_profile_params 2 0 moffatGaussBoundsHard
          [4, 5, 9, 9, 9, 9, 9, 9, 9] false 1 0 = 5 := by
  refine ⟨(C8_amplitude_block 2 0 moffatGaussBoundsHard [3]).1 (by decide)
      |>.1 0, ?_, ?_⟩
  · exact (C8_amplitude_block 2 0 moffatGaussBoundsHard [3]).1 (by decide)
      |>.2 0 1 (by decide) (by decide)
  · have h9 := (C8_amplitude_block 2 0 moffatGaussBoundsHard
      [4, 5, 9, 9, 9, 9, 9, 9, 9]).2 (by decide) 1
    simpa using h9

/-! ### Claim C9 -/

/-- Claim C9: apply_max_width_to_bounds is idempotent, and after a call
with half-width h the transverse position bound is capped at 2 * h while
the two width parameter bounds are capped at h, both for the hard and for
the soft bound arrays. -/
theorem C9_apply_max_width_idempotent (s : MoffatGaussState) (h : ℚ) :
    apply_max_width_to_bounds (apply_max_width_to_bounds s (some h)) (some h)
        = apply_max_width_to_bounds s (some h) ∧
      (apply_max_width_to_bounds s (some h)).max_half_width = some h ∧
      (apply_max_width_to_bounds s (some h)).bounds_hard 2
        = (some 0, some (2 * h)) ∧
      (apply_max_width_to_bounds s (some h)).bounds_hard 3
        = (some (1 / 10), some h) ∧
      (apply_max_width_to_bounds s (some h)).bounds_hard 6
        = (some (1 / 10), some h) ∧
      (apply_max_width_to_bounds s (some h)).bounds_soft 2
        = (some 0, some (2 * h)) ∧
      (apply_max_width_to_bounds s (some h)).bounds_soft 3
        = (some (1 / 10), some h) ∧
      (apply_max_width_to_bounds s (some h)).bounds_soft 6
        = (some (1 / 10), some h) := by
  exact ⟨rfl, rfl, rfl, rfl, rfl, rfl, rfl, rfl⟩

/-! ### Claim C10 -/

/-- Claim C10: evaluate called with a parameter argument overwrites the
stored parameter vector self.p and changes no other field; a later call
with the argument omitted evaluates the model at the last supplied
parameters. -/
theorem C10_evaluate_updates_p (s : MoffatGaussState) (m : ℕ)
    (pixels pixels2 : Fin (m + 2) → ℝ) (q : Fin 8 → ℝ) (nx ny : ℕ)
    (pixA pixB : Fin 2 → Fin nx → Fin ny → ℝ) :
    (evaluate1D s pixels (some q)).2.p = q ∧
      (evaluate1D s pixels (some q)).2.bounds_hard = s.bounds_hard ∧
      (evaluate1D s pixels (some q)).2.bounds_soft = s.bounds_soft ∧
      (evaluate1D s pixels (some q)).2.max_half_width = s.max_half_width ∧
      (evaluate1D s pixels none).2 = s ∧
      (evaluate1D (evaluate1D s pixels (some q)).2 pixels2 none).1
        = mgEval1D pixels2 q ∧
      (evaluate2D s pixA (some q)).2.p = q ∧
      (evaluate2D s pixA (some q)).2.bounds_hard = s.bounds_hard ∧
      (evaluate2D s pixA (some q)).2.bounds_soft = s.bounds_soft ∧
      (evaluate2D s pixA (some q)).2.max_half_width = s.max_half_width ∧
      (evaluate2D s pixA none).2 = s ∧
      (evaluate2D (evaluate2D s pixA (some q)).2 pixB none).1
        = mgEval2D pixB q :=
  ⟨rfl, rfl, rfl, rfl, rfl, rfl, rfl, rfl, rfl, rfl, rfl, rfl⟩

/-! ### Claim C5 -/

/-- Claim C5: in the positive amplitude prior mode the solver returns no
negative amplitude, for every design matrix, weight array, data array and
background noise level; the post-hoc clip itself is non-negative on every
input vector (the same clip is applied by the 2D workspace). -/
theorem C5_positive_mode_nonnegative :
    (∀ (Nx Ny : ℕ) (M W data : Fin Nx → Fin Ny → ℚ) (bgdStd : ℚ)
        (x : Fin Nx),
        0 ≤ amplitudeParams Nx Ny .positive M W data bgdStd x) ∧
      ∀ (n : ℕ) (a : Fin n → ℚ) (x : Fin n), 0 ≤ positiveClip a x := by
  have hclip : ∀ (n : ℕ) (a : Fin n → ℚ) (x : Fin n), 0 ≤ positiveClip a x := by
    intro n a x
    unfold positiveClip
    split
    · exact le_refl 0
    · exact le_of_not_lt (by assumption)
  exact ⟨fun Nx Ny M W data bgdStd x => hclip _ _ x, hclip⟩

/-! ### Claim C3 -/

/-- Counterexample to claim C3 as stated: on a column with all-zero data
and weights the solver returns the amplitude 0.1 * bgd_std, which is not 0
(here bgd_std = 1, so the amplitude is 1/10). -/
theorem C3_counterexample :
    amplitudeRaw 1 1 (fun _ _ => 1) (fun _ _ => 0) (fun _ _ => 0) 1 0 = 1 / 10
      ∧ (1 / 10 : ℚ) ≠ 0 := by
  constructor
  · simp [amplitudeRaw, gramEntry]
  · norm_num

/-- Claim C3 as amended: for a column with all-zero data and weights the
Gram entry is zero, so the guard branch is taken and the returned amplitude
and returned variance are both the floor 0.1 * bgd_std, which is finite (a
rational) and non-zero for a positive background noise level; no division
by zero occurs since the dividing branch is not taken. -/
theorem C3_zero_column_floor (Nx Ny : ℕ) (M W data : Fin Nx → Fin Ny → ℚ)
    (bgdStd : ℚ) (x : Fin Nx) (hW : ∀ j, W x j = 0)
    (hdata : ∀ j, data x j = 0) (hb : 0 < bgdStd) :
    amplitudeRaw Nx Ny M W data bgdStd x = (1 / 10) * bgdStd ∧
      covDiag Nx Ny M W bgdStd x = (1 / 10) * bgdStd ∧
      covDiag Nx Ny M W bgdStd x ≠ 0 := by
  have hg : gramEntry Ny (M x) (W x) = 0 := by
    unfold gramEntry
    refine Finset.sum_eq_zero fun j _ => ?_
    rw [hW j]
    ring
  have hng : ¬ 0 < gramEntry Ny (M x) (W x) := by rw [hg]; exact lt_irrefl 0
  refine ⟨?_, ?_, ?_⟩
  · simp [amplitudeRaw, hng]
  · simp [covDiag, hng]
  · simp only [covDiag, hng, if_false]
    positivity

/-- Witness for the amended claim C3 on a concrete degenerate column. -/
theorem C3_witness :
    amplitudeRaw 1 1 (fun _ _ => 1) (fun _ _ => 0) (fun _ _ => 0) 1 0
        = (1 / 10) * 1 ∧
      covDiag 1 1 (fun _ _ => 1) (fun _ _ => 0) 1 0 = (1 / 10) * 1 ∧
      covDiag 1 1 (fun _ _ => 1) (fun _ _ => 0) 1 0 ≠ 0 :=
  C3_zero_column_floor 1 1 (fun _ _ => 1) (fun _ _ => 0) (fun _ _ => 0) 1 0
    (fun _ => rfl) (fun _ => rfl) (by norm_num)

/-! ### Claim C6 -/

/-- Membership in the frozen negative index list. -/
theorem mem_nullIdxs {n : ℕ} (a : Fin n → ℚ) (i : Fin n) :
    i ∈ nullIdxs a ↔ a i < 0 := by
  simp [nullIdxs, List.mem_filter, List.mem_finRange]

/-- The frozen negative index list has no duplicates. -/
theorem nodup_nullIdxs {n : ℕ} (a : Fin n → ℚ) : (nullIdxs a).Nodup :=
  (List.nodup_finRange n).filter _

/-- A position outside the processed index list is untouched by the repair
fold. -/
theorem foldl_smoothStep_not_mem {n : ℕ} (isNull : Fin n → Bool)
    (l : List (Fin n)) (s : Fin n → ℚ) (x : Fin n) (hx : x ∉ l) :
    (l.foldl (smoothStep isNull) s) x = s x := by
  induction l generalizing s with
  | nil => rfl
  | cons y t ih =>
      have hxy : x ≠ y := fun h => hx (h ▸ List.mem_cons_self y t)
      have hxt : x ∉ t := fun h => hx (List.mem_cons_of_mem y h)
      rw [List.foldl_cons, ih _ hxt, smoothStep, Function.update_noteq hxy]

/-- Positions that are not flagged keep their original value throughout a
repair fold over flagged indices. -/
theorem foldl_smoothStep_nonnull {n : ℕ} (isNull : Fin n → Bool)
    (l : List (Fin n)) (s : Fin n → ℚ) (hl : ∀ y ∈ l, isNull y = true)
    (i : Fin n) (hi : isNull i = false) :
    (l.foldl (smoothStep isNull) s) i = s i := by
  induction l generalizing s with
  | nil => rfl
  | cons y t ih =>
      have hiy : i ≠ y := by
        intro h
        rw [h, hl y (List.mem_cons_self y t)] at hi
        cases hi
      rw [List.foldl_cons, ih _ (fun z hz => hl z (List.mem_cons_of_mem y hz)),
        smoothStep, Function.update_noteq hiy]

/-- A scan whose index list contains an unflagged index returns the current
value at the first such index. -/
theorem scanVal_find {n : ℕ} (cur : Fin n → ℚ) (isNull : Fin n → Bool)
    (idxs : List (Fin n)) (r : Fin n)
    (hfind : idxs.find? (fun i => !isNull i) = some r) :
    ∀ v, scanVal cur isNull v idxs = cur r := by
  induction idxs with
  | nil => cases hfind
  | cons i t ih =>
      intro v
      rcases hni : isNull i with _ | _
      · rw [List.find?_cons_of_pos _ (by simp [hni])] at hfind
        cases hfind
        simp [scanVal, hni]
      · rw [List.find?_cons_of_neg _ (by simp [hni])] at hfind
        simp only [scanVal, hni, if_true]
        exact ih hfind _

/-- Counterexample to claim C6 as stated: on the raw amplitude vector
[5, -1, 3] both nearest non-negative neighbours of the negative entry at
index 1 are at distance 1 (well within 10 columns), yet the smooth repair
writes 1 instead of their average 4, because the leftward scan
range(index, max(0, index - 10), -1) of the source never reaches the stop
column 0 and therefore keeps the still-negative value -1 for the left
neighbour. -/
theorem C6_counterexample :
    smoothRepair (![5, -1, 3] : Fin 3 → ℚ) 1 = 1 ∧
      (![5, -1, 3] : Fin 3 → ℚ) 1 < 0 ∧
      (0 : ℚ) ≤ (![5, -1, 3] : Fin 3 → ℚ) 0 ∧
      (0 : ℚ) ≤ (![5, -1, 3] : Fin 3 → ℚ) 2 ∧
      ((![5, -1, 3] : Fin 3 → ℚ) 0 + (![5, -1, 3] : Fin 3 → ℚ) 2) / 2
        ≠ smoothRepair (![5, -1, 3] : Fin 3 → ℚ) 1 := by
  have hrep : smoothRepair (![5, -1, 3] : Fin 3 → ℚ) 1 = 1 := by
    have hnull : nullIdxs (![5, -1, 3] : Fin 3 → ℚ) = [1] := by decide
    have hfold : smoothRepair (![5, -1, 3] : Fin 3 → ℚ)
        = smoothStep (fun i => decide ((![5, -1, 3] : Fin 3 → ℚ) i < 0))
            (![5, -1, 3] : Fin 3 → ℚ) 1 := by
      rw [smoothRepair, hnull]
      rfl
    have hsr : scanVal (![5, -1, 3] : Fin 3 → ℚ)
        (fun i => decide ((![5, -1, 3] : Fin 3 → ℚ) i < 0))
        ((![5, -1, 3] : Fin 3 → ℚ) 1) (rightIdxs 3 1) = 3 := by decide
    have hsl : scanVal (![5, -1, 3] : Fin 3 → ℚ)
        (fun i => decide ((![5, -1, 3] : Fin 3 → ℚ) i < 0))
        ((![5, -1, 3] : Fin 3 → ℚ) 1) (leftIdxs 3 1) = -1 := by decide
    rw [hfold]
    simp only [smoothStep, hsr, hsl]
    rw [Function.update_same]
    norm_num
  refine ⟨hrep, by norm_num, by norm_num, by norm_num, ?_⟩
  rw [hrep]
  norm_num

/-- Claim C6 as amended: an originally negative amplitude entry at x is
replaced by the average of the first originally non-negative value met by
the rightward scan over range(x, min(x + 10, Nx)) and the first originally
non-negative value met by the leftward scan over
range(x, max(0, x - 10), -1), whenever both scans meet one; the scan
windows thus reach only 9 columns to the right, and to the left stop one
short of column max(0, x - 10); when a scan meets none, the last scanned,
possibly already repaired, value is used instead (case not covered here). -/
theorem C6_smooth_neighbor_average {n : ℕ} (a : Fin n → ℚ) (x : Fin n)
    (hx : a x < 0) (r l : Fin n)
    (hr : (rightIdxs n x).find? (fun i => !decide (a i < 0)) = some r)
    (hl : (leftIdxs n x).find? (fun i => !decide (a i < 0)) = some l) :
    smoothRepair a x = (a r + a l) / 2 := by
  have hxmem : x ∈ nullIdxs a := (mem_nullIdxs a x).mpr hx
  obtain ⟨l₁, l₂, hsplit⟩ := List.append_of_mem hxmem
  have hnodup : (l₁ ++ x :: l₂).Nodup := hsplit ▸ nodup_nullIdxs a
  have hxl₂ : x ∉ l₂ :=
    (List.nodup_cons.mp (hnodup.sublist (List.sublist_append_right l₁ _))).1
  have hrnn : (fun i => decide (a i < 0)) r = false := by
    have := List.find?_some hr
    simpa using this
  have hlnn : (fun i => decide (a i < 0)) l = false := by
    have := List.find?_some hl
    simpa using this
  have hl₁ : ∀ y ∈ l₁, (fun i => decide (a i < 0)) y = true := by
    intro y hy
    have : y ∈ nullIdxs a := by
      rw [hsplit]
      exact List.mem_append_left _ hy
    simpa using (mem_nullIdxs a y).mp this
  rw [smoothRepair, hsplit, List.foldl_append, List.foldl_cons]
  rw [foldl_smoothStep_not_mem _ _ _ _ hxl₂]
  rw [smoothStep, Function.update_same]
  rw [scanVal_find _ _ _ _ hr, scanVal_find _ _ _ _ hl]
  rw [foldl_smoothStep_nonnull _ _ _ hl₁ _ hrnn,
    foldl_smoothStep_nonnull _ _ _ hl₁ _ hlnn]

/-- Witness for the amended claim C6 on the raw amplitude vector
[9, 2, -1, 4]: the entry at index 2 is replaced by the average of the
values at indices 3 and 1. -/
theorem C6_witness :
    smoothRepair (![9, 2, -1, 4] : Fin 4 → ℚ) 2
      = ((![9, 2, -1, 4] : Fin 4 → ℚ) 3 + (![9, 2, -1, 4] : Fin 4 → ℚ) 1) / 2 :=
  C6_smooth_neighbor_average (![9, 2, -1, 4] : Fin 4 → ℚ) 2 (by norm_num)
    3 1 (by decide) (by decide)

/-! ### Claim C7

Auxiliary decomposition of the check_bounds loop: each parameter index k
contributes an ordered list of violation events, an event carrying the
summed violation magnitude and the divisor applied to the running penalty
right after the violation is added (1 when the division is skipped). -/

/-- Penalty update of one violation event: the source adds the violation to
the running penalty and then divides the whole running penalty. -/
def pstep (acc : ℚ) (e : ℚ × ℚ) : ℚ := (acc + e.1) / e.2

/-- Divisor applied by the source after a violation of parameter column p:
the absolute column mean, or 1 when np.isclose(mean, 0) skips the division. -/
def meanDiv (Nx : ℕ) (p : Fin Nx → ℚ) : ℚ :=
  if ¬ iscloseZero (colMean Nx p) then |colMean Nx p| else 1

/-- Ordered violation events contributed by parameter index k. -/
def stepEvents (Nx : ℕ) (profile : Fin Nx → Fin 8 → ℚ)
    (boundsSoft : Fin 8 → OBnd) (noise : ℚ) (k : Fin 8) : List (ℚ × ℚ) :=
  let p : Fin Nx → ℚ := fun i => profile i k
  if k.val = 0 then
    (if ∃ i, p i < -noise then [(|∑ i with p i < -noise, p i|, 1)] else [])
  else if k.val = 7 then []
  else
    (match (boundsSoft k).2 with
     | some hi =>
         if ∃ i, hi < p i then
           [(∑ i with hi < p i, (p i - hi), meanDiv Nx p)]
         else []
     | none => []) ++
    (match (boundsSoft k).1 with
     | some lo =>
         if ∃ i, p i < lo then
           [(∑ i with p i < lo, (lo - p i), meanDiv Nx p)]
         else []
     | none => [])

/-- The penalty component of one check_bounds iteration is the event fold
of that iteration. -/
theorem checkBoundsStep_pen (Nx : ℕ) (profile : Fin Nx → Fin 8 → ℚ)
    (boundsSoft : Fin 8 → OBnd) (noise : ℚ) (st : CBState) (k : Fin 8) :
    (checkBoundsStep Nx profile boundsSoft noise st k).2.1
      = (stepEvents Nx profile boundsSoft noise k).foldl pstep st.2.1 := by
  by_cases hk0 : k.val = 0
  · simp only [checkBoundsStep, stepEvents, hk0, if_true]
    split_ifs <;> simp [pstep]
  · by_cases hk7 : k.val = 7
    · simp [checkBoundsStep, stepEvents, hk0, hk7]
    · simp only [checkBoundsStep, stepEvents, meanDiv, hk0, hk7, if_false]
      rcases h2 : (boundsSoft k).2 with _ | hi <;>
        rcases h1 : (boundsSoft k).1 with _ | lo <;>
        simp only [h1, h2] <;> (try split_ifs) <;> simp [pstep]

/-- One check_bounds iteration never turns the in_bounds flag back on. -/
theorem checkBoundsStep_flag (Nx : ℕ) (profile : Fin Nx → Fin 8 → ℚ)
    (boundsSoft : Fin 8 → OBnd) (noise : ℚ) (st : CBState) (k : Fin 8)
    (h : (checkBoundsStep Nx profile boundsSoft noise st k).1 = true) :
    st.1 = true := by
  by_cases hk0 : k.val = 0
  · simp only [checkBoundsStep, hk0, if_true] at h
    split_ifs at h <;> simp_all
  · by_cases hk7 : k.val = 7
    · simpa [checkBoundsStep, hk0, hk7] using h
    · simp only [checkBoundsStep, hk0, hk7, if_false] at h
      rcases h2 : (boundsSoft k).2 with _ | hi <;>
        rcases h1 : (boundsSoft k).1 with _ | lo <;>
        simp only [h1, h2] at h <;> (try split_ifs at h) <;> simp_all

/-- One check_bounds iteration never removes an offending name. -/
theorem checkBoundsStep_names (Nx : ℕ) (profile : Fin Nx → Fin 8 → ℚ)
    (boundsSoft : Fin 8 → OBnd) (noise : ℚ) (st : CBState) (k : Fin 8)
    (m : Fin 8) (hm : m ∈ st.2.2) :
    m ∈ (checkBoundsStep Nx profile boundsSoft noise st k).2.2 := by
  by_cases hk0 : k.val = 0
  · simp only [checkBoundsStep, hk0, if_true]
    split_ifs <;> simp [hm]
  · by_cases hk7 : k.val = 7
    · simpa [checkBoundsStep, hk0, hk7] using hm
    · simp only [checkBoundsStep, hk0, hk7, if_false]
      rcases h2 : (boundsSoft k).2 with _ | hi <;>
        rcases h1 : (boundsSoft k).1 with _ | lo <;>
        simp only [h1, h2] <;> (try split_ifs) <;> simp [hm]

/-- The penalty of a check_bounds fold is the fold of the concatenated
event lists. -/
theorem foldl_checkBounds_pen (Nx : ℕ) (profile : Fin Nx → Fin 8 → ℚ)
    (boundsSoft : Fin 8 → OBnd) (noise : ℚ) (l : List (Fin 8)) (st : CBState) :
    ((l.foldl (checkBoundsStep Nx profile boundsSoft noise) st).2.1)
      = (l.flatMap (stepEvents Nx profile boundsSoft noise)).foldl pstep st.2.1 := by
  induction l generalizing st with
  | nil => rfl
  | cons k t ih =>
      rw [List.foldl_cons, ih, List.flatMap_cons, List.foldl_append,
        checkBoundsStep_pen]

/-- A fold of penalty events in closed form: every event contributes its
violation magnitude divided by the product of its own divisor and the
divisors of all later events. -/
theorem foldl_pstep_closed (evs : List (ℚ × ℚ)) (acc : ℚ) :
    evs.foldl pstep acc
      = acc / (evs.map Prod.snd).prod
        + ∑ t ∈ Finset.range evs.length,
            (evs.getD t (0, 1)).1 / ((evs.drop t).map Prod.snd).prod := by
  induction evs generalizing acc with
  | nil => simp
  | cons e t ih =>
      rw [List.foldl_cons, ih]
      simp only [List.length_cons, List.map_cons, List.prod_cons]
      rw [Finset.sum_range_succ']
      simp only [List.getD_cons_succ, List.getD_cons_zero, List.drop_succ_cons,
        List.drop_zero, List.map_cons, List.prod_cons]
      rw [pstep, div_div]
      ring

/-- Branch lemma: amplitude entry of the raw profile expansion for a long
vector. -/
theorem profileRaw_amp (Nx deg : ℕ) (poly : List ℚ) (i : Fin Nx) (k : Fin 8)
    (hk : k.val = 0) (hlen : Nx < poly.length) :
    profileRaw Nx deg poly i k = poly.getD i.val 0 := by
  rw [profileRaw, if_pos hk, if_pos hlen]

/-- Branch lemma: shape entry of the raw profile expansion for a long
vector. -/
theorem profileRaw_coef (Nx deg : ℕ) (poly : List ℚ) (i : Fin Nx) (k : Fin 8)
    (hk : ¬ k.val = 0) (hlen : Nx < poly.length) :
    profileRaw Nx deg poly i k
      = legvalL (pixelAt Nx i.val)
          ((poly.drop (Nx + blockOff deg k.val)).take (degOf deg k.val + 1)) := by
  rw [profileRaw, if_neg hk, if_pos hlen]

/-- A one-coefficient Legendre series is the constant coefficient. -/
theorem legvalL_singleton (x c : ℚ) : legvalL x [c] = c := by
  simp [legvalL, legP, legPAux]

/-- The in_bounds flag of a check_bounds fold never turns back on. -/
theorem foldl_checkBounds_flag (Nx : ℕ) (profile : Fin Nx → Fin 8 → ℚ)
    (boundsSoft : Fin 8 → OBnd) (noise : ℚ) (l : List (Fin 8)) (st : CBState)
    (h : (l.foldl (checkBoundsStep Nx profile boundsSoft noise) st).1 = true) :
    st.1 = true := by
  induction l generalizing st with
  | nil => exact h
  | cons k t ih =>
      rw [List.foldl_cons] at h
      exact checkBoundsStep_flag Nx profile boundsSoft noise st k (ih _ h)

/-- Offending names of a check_bounds fold are never removed. -/
theorem foldl_checkBounds_names (Nx : ℕ) (profile : Fin Nx → Fin 8 → ℚ)
    (boundsSoft : Fin 8 → OBnd) (noise : ℚ) (l : List (Fin 8)) (st : CBState)
    (m : Fin 8) (hm : m ∈ st.2.2) :
    m ∈ (l.foldl (checkBoundsStep Nx profile boundsSoft noise) st).2.2 := by
  induction l generalizing st with
  | nil => exact hm
  | cons k t ih =>
      rw [List.foldl_cons]
      exact ih _ (checkBoundsStep_names Nx profile boundsSoft noise st k m hm)

/-- Ordered violation-event list of a whole check_bounds call. -/
def checkBoundsEvents (Nx deg : ℕ) (boundsSoft : Fin 8 → OBnd)
    (poly : List ℚ) (noise : ℚ) : List (ℚ × ℚ) :=
  (List.finRange 8).flatMap
    (stepEvents Nx (from_poly_params_to_profile_params Nx deg boundsSoft poly false)
      boundsSoft noise)

/-- Claim C7 as amended: check_bounds expands the polynomial parameters
without hard clipping; the returned penalty equals Nx * Ny times the sum,
over the ordered violation events (amplitude first with divisor 1, then for
every non-amplitude, non-saturation parameter its upper then lower
soft-bound violation with divisor the absolute column mean unless
np.isclose(mean, 0)), of each violation magnitude divided by the product of
its own divisor and the divisors of all later events - the source divides
the running total, not only the current term; amplitude entries below
-noise_level force in_bounds to False and put the amplitude name in the
offending-names output. -/
theorem C7_check_bounds_semantics (Nx Ny deg : ℕ)
    (boundsSoft : Fin 8 → OBnd) (poly : List ℚ) (noise : ℚ) :
    (check_bounds Nx Ny deg boundsSoft poly noise).2.1
      = (∑ t ∈ Finset.range (checkBoundsEvents Nx deg boundsSoft poly noise).length,
            ((checkBoundsEvents Nx deg boundsSoft poly noise).getD t (0, 1)).1
              / (((checkBoundsEvents Nx deg boundsSoft poly noise).drop t).map
                  Prod.snd).prod)
          * (Nx * Ny : ℚ) ∧
      ((∃ i : Fin Nx,
          from_poly_params_to_profile_params Nx deg boundsSoft poly false i 0
            < -noise) →
        (check_bounds Nx Ny deg boundsSoft poly noise).1 = false ∧
          (0 : Fin 8) ∈ (check_bounds Nx Ny deg boundsSoft poly noise).2.2) := by
  constructor
  · simp only [check_bounds, checkBoundsEvents]
    rw [foldl_checkBounds_pen, foldl_pstep_closed]
    norm_num
  · intro hex
    have h00 : ((0 : Fin 8)).val = 0 := rfl
    have hfr : (List.finRange 8)
        = (0 : Fin 8) :: [1, 2, 3, 4, 5, 6, 7] := by decide
    have hs1 : (checkBoundsStep Nx
        (from_poly_params_to_profile_params Nx deg boundsSoft poly false)
        boundsSoft noise (true, 0, []) 0).1 = false := by
      simp [checkBoundsStep, h00, hex]
    have hs2 : (0 : Fin 8) ∈ (checkBoundsStep Nx
        (from_poly_params_to_profile_params Nx deg boundsSoft poly false)
        boundsSoft noise (true, 0, []) 0).2.2 := by
      simp [checkBoundsStep, h00, hex]
    constructor
    · simp only [check_bounds]
      rw [hfr, List.foldl_cons]
      by_contra hne
      have hb : (List.foldl (checkBoundsStep Nx
          (from_poly_params_to_profile_params Nx deg boundsSoft poly false)
          boundsSoft noise)
          (checkBoundsStep Nx
            (from_poly_params_to_profile_params Nx deg boundsSoft poly false)
            boundsSoft noise (true, 0, []) 0)
          [1, 2, 3, 4, 5, 6, 7]).1 = true := by
        revert hne
        cases (List.foldl (checkBoundsStep Nx
            (from_poly_params_to_profile_params Nx deg boundsSoft poly false)
            boundsSoft noise)
            (checkBoundsStep Nx
              (from_poly_params_to_profile_params Nx deg boundsSoft poly false)
              boundsSoft noise (true, 0, []) 0)
            [1, 2, 3, 4, 5, 6, 7]).1 <;> simp
      have h1 := foldl_checkBounds_flag Nx _ boundsSoft noise _ _ hb
      rw [hs1] at h1
      cases h1
    · simp only [check_bounds]
      rw [hfr, List.foldl_cons]
      exact foldl_checkBounds_names Nx _ boundsSoft noise _ _ _ hs2

/-- Counterexample to claim C7 as stated: on a one-column, one-row
configuration where alpha = 20 violates its upper soft bound 10 and
eta_gauss = 2 violates its upper soft bound 0, the per-parameter normalised
formula of the claim gives Nx * Ny * (10 / 20 + 2 / 2) = 3 / 2, but
check_bounds returns 5 / 4 because the division by the eta_gauss mean also
divides the already accumulated alpha penalty: ((10 / 20) + 2) / 2. -/
theorem C7_counterexample :
    (check_bounds 1 1 0 moffatGaussBoundsSoft
        [0, 0, 50, 1/5, 20, 2, 1/5, 8000] 0).2.1 = 5 / 4 ∧
      ((1 : ℚ) * 1) * ((20 - 10) / |(20 : ℚ)| + (2 - 0) / |(2 : ℚ)|) = 3 / 2 ∧
      (5 / 4 : ℚ) ≠ 3 / 2 := by
  refine ⟨?_, by norm_num, by norm_num⟩
  have hlen : (1 : ℕ) <
      ([0, 0, 50, 1/5, 20, 2, 1/5, 8000] : List ℚ).length := by norm_num
  have hp0 : from_poly_params_to_profile_params 1 0 moffatGaussBoundsSoft
      [0, 0, 50, 1/5, 20, 2, 1/5, 8000] false 0 0 = 0 := by
    have h := profileRaw_amp 1 0 [0, 0, 50, 1/5, 20, 2, 1/5, 8000] 0 0 rfl hlen
    exact h
  have hcoef : ∀ (k : Fin 8) (c : ℚ), ¬ k.val = 0 →
      (([0, 0, 50, 1/5, 20, 2, 1/5, 8000] : List ℚ).drop
          (1 + blockOff 0 k.val)).take (degOf 0 k.val + 1) = [c] →
      from_poly_params_to_profile_params 1 0 moffatGaussBoundsSoft
        [0, 0, 50, 1/5, 20, 2, 1/5, 8000] false 0 k = c := by
    intro k c hk htake
    have h := profileRaw_coef 1 0 [0, 0, 50, 1/5, 20, 2, 1/5, 8000] 0 k hk hlen
    have h2 : from_poly_params_to_profile_params 1 0 moffatGaussBoundsSoft
        [0, 0, 50, 1/5, 20, 2, 1/5, 8000] false 0 k
        = legvalL (pixelAt 1 0)
            ((([0, 0, 50, 1/5, 20, 2, 1/5, 8000] : List ℚ).drop
              (1 + blockOff 0 k.val)).take (degOf 0 k.val + 1)) := h
    rw [h2, htake, legvalL_singleton]
  have hp3 : from_poly_params_to_profile_params 1 0 moffatGaussBoundsSoft
      [0, 0, 50, 1/5, 20, 2, 1/5, 8000] false 0 3 = 1/5 :=
    hcoef 3 (1/5) (by decide) rfl
  have hp4 : from_poly_params_to_profile_params 1 0 moffatGaussBoundsSoft
      [0, 0, 50, 1/5, 20, 2, 1/5, 8000] false 0 4 = 20 :=
    hcoef 4 20 (by decide) rfl
  have hp5 : from_poly_params_to_profile_params 1 0 moffatGaussBoundsSoft
      [0, 0, 50, 1/5, 20, 2, 1/5, 8000] false 0 5 = 2 :=
    hcoef 5 2 (by decide) rfl
  have hp6 : from_poly_params_to_profile_params 1 0 moffatGaussBoundsSoft
      [0, 0, 50, 1/5, 20, 2, 1/5, 8000] false 0 6 = 1/5 :=
    hcoef 6 (1/5) (by decide) rfl
  set prof := from_poly_params_to_profile_params 1 0 moffatGaussBoundsSoft
    [0, 0, 50, 1/5, 20, 2, 1/5, 8000] false with hprofdef
  have e0 : stepEvents 1 prof moffatGaussBoundsSoft 0 0 = [] := by
    have hge : ∀ x : Fin 1, (0 : ℚ) ≤ prof x 0 := by
      intro x
      obtain rfl : x = 0 := Subsingleton.elim x 0
      rw [hp0]
    have hk : ((0 : Fin 8)).val = 0 := rfl
    simp [stepEvents, hk, hge]
  have e1 : stepEvents 1 prof moffatGaussBoundsSoft 0 1 = [] := by
    have hb : moffatGaussBoundsSoft 1 = ((none : Option ℚ), (none : Option ℚ)) :=
      rfl
    have hk : ((1 : Fin 8)).val = 1 := rfl
    simp [stepEvents, hb, hk]
  have e2 : stepEvents 1 prof moffatGaussBoundsSoft 0 2 = [] := by
    have hb : moffatGaussBoundsSoft 2 = ((none : Option ℚ), (none : Option ℚ)) :=
      rfl
    have hk : ((2 : Fin 8)).val = 2 := rfl
    simp [stepEvents, hb, hk]
  have e3 : stepEvents 1 prof moffatGaussBoundsSoft 0 3 = [] := by
    have hb : moffatGaussBoundsSoft 3 = (some (1/10), (none : Option ℚ)) := rfl
    have hk : ((3 : Fin 8)).val = 3 := rfl
    simp only [stepEvents, hb, hk]
    simp
    intro x
    obtain rfl : x = 0 := Subsingleton.elim x 0
    rw [hp3]
    norm_num
  have e4 : stepEvents 1 prof moffatGaussBoundsSoft 0 4 = [(10, 20)] := by
    have hb : moffatGaussBoundsSoft 4 = (some (11/10), some 10) := rfl
    have hup : ∃ i : Fin 1, (10 : ℚ) < prof i 4 := ⟨0, by rw [hp4]; norm_num⟩
    have hlow : ∀ x : Fin 1, (11/10 : ℚ) ≤ prof x 4 := by
      intro x
      obtain rfl : x = 0 := Subsingleton.elim x 0
      rw [hp4]
      norm_num
    have hsum : (∑ i with (10 : ℚ) < prof i 4, (prof i 4 - 10)) = 10 := by
      rw [Finset.sum_filter, Fin.sum_univ_one, if_pos (by rw [hp4]; norm_num :
        (10 : ℚ) < prof 0 4), hp4]
      norm_num
    have hmean : meanDiv 1 (fun i => prof i 4) = 20 := by
      have hc : colMean 1 (fun i => prof i 4) = 20 := by
        rw [colMean, Fin.sum_univ_one, hp4]
        norm_num
      rw [meanDiv, hc, if_pos (by norm_num [iscloseZero])]
      norm_num
    have hk : ((4 : Fin 8)).val = 4 := rfl
    simp [stepEvents, hb, hk, hup, hlow, hsum, hmean]
    rw [Finset.filter_singleton,
      if_pos (show (10 : ℚ) < prof 0 4 by rw [hp4]; norm_num)]
    simp [hp4]
    norm_num
  have e5 : stepEvents 1 prof moffatGaussBoundsSoft 0 5 = [(2, 2)] := by
    have hb : moffatGaussBoundsSoft 5 = (some (-1), some 0) := rfl
    have hup : ∃ i : Fin 1, (0 : ℚ) < prof i 5 := ⟨0, by rw [hp5]; norm_num⟩
    have hlow : ∀ x : Fin 1, (-1 : ℚ) ≤ prof x 5 := by
      intro x
      obtain rfl : x = 0 := Subsingleton.elim x 0
      rw [hp5]
      norm_num
    have hsum : (∑ i with (0 : ℚ) < prof i 5, (prof i 5 - 0)) = 2 := by
      rw [Finset.sum_filter, Fin.sum_univ_one, if_pos (by rw [hp5]; norm_num :
        (0 : ℚ) < prof 0 5), hp5]
      norm_num
    have hmean : meanDiv 1 (fun i => prof i 5) = 2 := by
      have hc : colMean 1 (fun i => prof i 5) = 2 := by
        rw [colMean, Fin.sum_univ_one, hp5]
        norm_num
      rw [meanDiv, hc, if_pos (by norm_num [iscloseZero])]
      norm_num
    have hk : ((5 : Fin 8)).val = 5 := rfl
    simp [stepEvents, hb, hk, hup, hlow, hsum, hmean]
    rw [Finset.filter_singleton,
      if_pos (show (0 : ℚ) < prof 0 5 by rw [hp5]; norm_num)]
    simp [hp5]
  have e6 : stepEvents 1 prof moffatGaussBoundsSoft 0 6 = [] := by
    have hb : moffatGaussBoundsSoft 6 = (some (1/10), (none : Option ℚ)) := rfl
    have hk : ((6 : Fin 8)).val = 6 := rfl
    simp only [stepEvents, hb, hk]
    simp
    intro x
    obtain rfl : x = 0 := Subsingleton.elim x 0
    rw [hp6]
    norm_num
  have e7 : stepEvents 1 prof moffatGaussBoundsSoft 0 7 = [] := by
    have hk : ((7 : Fin 8)).val = 7 := rfl
    simp [stepEvents, hk]
  have hfr : (List.finRange 8)
      = (0 : Fin 8) :: [1, 2, 3, 4, 5, 6, 7] := by decide
  have hflat : (List.finRange 8).flatMap (stepEvents 1 prof moffatGaussBoundsSoft 0)
      = [(10, 20), (2, 2)] := by
    rw [hfr]
    simp [e0, e1, e2, e3, e4, e5, e6, e7]
  simp only [check_bounds]
  rw [foldl_checkBounds_pen]
  rw [hprofdef] at hflat
  rw [hflat]
  simp [pstep]
  norm_num

/-- Witness for the amended claim C7 on a concrete call whose amplitude
column is below the noise allowance. -/
theorem C7_witness :
    (check_bounds 1 1 0 moffatGaussBoundsSoft [-5, 0, 0, 0, 0, 0, 0, 0] 0).1
        = false ∧
      (0 : Fin 8) ∈
        (check_bounds 1 1 0 moffatGaussBoundsSoft
          [-5, 0, 0, 0, 0, 0, 0, 0] 0).2.2 :=
  (C7_check_bounds_semantics 1 1 0 moffatGaussBoundsSoft
    [-5, 0, 0, 0, 0, 0, 0, 0] 0).2
    ⟨0, by
      have h := profileRaw_amp 1 0 [-5, 0, 0, 0, 0, 0, 0, 0] 0 0 rfl
        (by norm_num)
      have hv : from_poly_params_to_profile_params 1 0 moffatGaussBoundsSoft
          [-5, 0, 0, 0, 0, 0, 0, 0] false 0 0
          = ([-5, 0, 0, 0, 0, 0, 0, 0] : List ℚ).getD 0 0 := h
      rw [hv]
      norm_num⟩

/-! ### Claim C1 -/

/-- The degree-0 Legendre polynomial is the constant 1. -/
theorem legP_zero (x : ℚ) : legP 0 x = 1 := rfl

/-- Dropping a prefix and then more. -/
theorem drop_append_add {α : Type} (l₁ l₂ : List α) (m : ℕ) :
    (l₁ ++ l₂).drop (l₁.length + m) = l₂.drop m :=
  List.drop_append m

/-- Value of a Legendre series whose coefficient list enumerates a
function on Fin m. -/
theorem legvalL_map_finRange (x : ℚ) (m : ℕ) (g : Fin m → ℚ) :
    legvalL x ((List.finRange m).map g) = ∑ j : Fin m, g j * legP j.val x := by
  unfold legvalL
  rw [List.length_map, List.length_finRange, ← Fin.sum_univ_eq_sum_range]
  refine Finset.sum_congr rfl fun j _ => ?_
  have hj : (j : ℕ) < ((List.finRange m).map g).length := by simp
  rw [List.getD_eq_getElem _ _ hj]
  simp

/-- Uniform prefix blocks of a flat map can be dropped block by block. -/
theorem flatMap_block_drop (f : Fin 8 → List ℚ) (L : ℕ) :
    ∀ (j : ℕ) (ks : List (Fin 8)), j ≤ ks.length →
      (∀ b ∈ ks.take j, (f b).length = L) →
      (ks.flatMap f).drop (j * L) = (ks.drop j).flatMap f := by
  intro j
  induction j with
  | zero => intro ks _ _; simp
  | succ j ih =>
      intro ks hj huni
      cases ks with
      | nil => simp at hj
      | cons a t =>
          rw [List.flatMap_cons]
          have hL : (f a).length = L := by
            refine huni a ?_
            rw [List.take_succ_cons]
            exact List.mem_cons_self a _
          have harith : (j + 1) * L = (f a).length + j * L := by
            rw [hL]
            ring
          rw [harith, drop_append_add, List.drop_succ_cons]
          refine ih t (by simpa using hj) fun b hb => huni b ?_
          rw [List.take_succ_cons]
          exact List.mem_cons_of_mem a hb

/-- Closed form of the running coefficient offset: every parameter before
index k contributes deg + 1 coefficients (saturation, which contributes a
single one, always comes last). -/
theorem blockOff_eq (deg k : ℕ) (hk : k ≤ 7) :
    blockOff deg k = (k - 1) * (deg + 1) := by
  unfold blockOff
  have hcongr : ∀ j ∈ Finset.Ico 1 k, degOf deg j + 1 = deg + 1 := by
    intro j hj
    rw [Finset.mem_Ico] at hj
    unfold degOf
    rw [if_neg (by omega)]
  rw [Finset.sum_congr rfl hcongr, Finset.sum_const, Nat.card_Ico, smul_eq_mul]

/-- The explicit non-amplitude parameter list of the poly_params layout. -/
theorem filter_finRange_eight :
    ((List.finRange 8).filter fun k => k.val ≠ 0)
      = [1, 2, 3, 4, 5, 6, 7] := by decide

/-- Length of a poly_params vector produced from a profile table: the Nx
amplitudes followed by deg + 1 coefficients for each of the six shape
parameters and one for saturation. -/
theorem from_profile_length (Nx deg : ℕ) (P : Fin Nx → Fin 8 → ℚ) :
    (from_profile_params_to_poly_params Nx deg P).length
      = Nx + (6 * (deg + 1) + 1) := by
  unfold from_profile_params_to_poly_params
  rw [filter_finRange_eight]
  simp only [List.flatMap_cons, List.flatMap_nil, List.length_append,
    List.length_map, List.length_finRange, List.append_nil, List.length_nil]
  have h1 : degOf deg ((1 : Fin 8)).val = deg := rfl
  have h2 : degOf deg ((2 : Fin 8)).val = deg := rfl
  have h3 : degOf deg ((3 : Fin 8)).val = deg := rfl
  have h4 : degOf deg ((4 : Fin 8)).val = deg := rfl
  have h5 : degOf deg ((5 : Fin 8)).val = deg := rfl
  have h6 : degOf deg ((6 : Fin 8)).val = deg := rfl
  have h7 : degOf deg ((7 : Fin 8)).val = 0 := rfl
  rw [h1, h2, h3, h4, h5, h6, h7]
  omega

/-- The amplitude block of a produced poly_params vector is the amplitude
column verbatim. -/
theorem from_profile_getD_amp (Nx deg : ℕ) (P : Fin Nx → Fin 8 → ℚ)
    (i : Fin Nx) :
    (from_profile_params_to_poly_params Nx deg P).getD i.val 0 = P i 0 := by
  unfold from_profile_params_to_poly_params
  have hi : i.val < ((List.finRange Nx).map fun j => P j 0).length := by simp
  rw [List.getD_append _ _ _ _ hi, List.getD_eq_getElem _ _ hi]
  simp

/-- Extraction of the Legendre coefficient block of parameter k from a
produced poly_params vector. -/
theorem from_profile_block (Nx deg : ℕ) (P : Fin Nx → Fin 8 → ℚ)
    (k : Fin 8) (hk : ¬ k.val = 0) :
    ((from_profile_params_to_poly_params Nx deg P).drop
        (Nx + blockOff deg k.val)).take (degOf deg k.val + 1)
      = (List.finRange (degOf deg k.val + 1)).map
          (legfit Nx (fun i => pixelAt Nx i.val) (fun i => P i 0)
            (fun i => P i k) (degOf deg k.val)) := by
  unfold from_profile_params_to_poly_params
  rw [filter_finRange_eight]
  have hamp : ((List.finRange Nx).map fun j => P j 0).length = Nx := by simp
  rw [show Nx + blockOff deg k.val
      = ((List.finRange Nx).map fun j => P j 0).length + blockOff deg k.val by
    rw [hamp]]
  rw [drop_append_add]
  have hblk : blockOff deg k.val = (k.val - 1) * (deg + 1) :=
    blockOff_eq deg k.val (by omega)
  have hdropped :
      (([1, 2, 3, 4, 5, 6, 7] : List (Fin 8)).flatMap fun k =>
          (List.finRange (degOf deg k.val + 1)).map
            (legfit Nx (fun i => pixelAt Nx i.val) (fun i => P i 0)
              (fun i => P i k) (degOf deg k.val))).drop (blockOff deg k.val)
        = (([1, 2, 3, 4, 5, 6, 7] : List (Fin 8)).drop (k.val - 1)).flatMap
            fun k =>
            (List.finRange (degOf deg k.val + 1)).map
              (legfit Nx (fun i => pixelAt Nx i.val) (fun i => P i 0)
                (fun i => P i k) (degOf deg k.val)) := by
    rw [hblk]
    refine flatMap_block_drop _ (deg + 1) (k.val - 1) _
      (by simp only [List.length_cons, List.length_nil]; omega) ?_
    intro b hb
    have key : ∀ m < 7, ∀ b ∈ ([1, 2, 3, 4, 5, 6, 7] : List (Fin 8)).take m,
        b.val ≠ 7 := by decide
    have hb7 : b.val ≠ 7 := key (k.val - 1) (by omega) b hb
    simp [degOf, hb7]
  rw [hdropped]
  have key2 : ∀ k : Fin 8, ¬ k.val = 0 →
      (([1, 2, 3, 4, 5, 6, 7] : List (Fin 8)).drop (k.val - 1))
        = k :: ([1, 2, 3, 4, 5, 6, 7] : List (Fin 8)).drop k.val := by decide
  rw [key2 k hk, List.flatMap_cons]
  refine List.take_left' ?_
  simp

/-- The weighted Legendre least squares fit recovers the coefficients of a
function that is exactly a Legendre series of the fitted degree, whenever
the Gram matrix of the system is non-singular. -/
theorem legfit_exact (n d : ℕ) (xs ws : Fin n → ℚ) (c : Fin (d + 1) → ℚ)
    (hdet : (legGram n xs ws d).det ≠ 0) :
    legfit n xs ws (fun i => ∑ j, c j * legP j.val (xs i)) d = c := by
  have hmom : legMoment n xs ws (fun i => ∑ j, c j * legP j.val (xs i)) d
      = (legGram n xs ws d).mulVec c := by
    funext a
    unfold legMoment legGram Matrix.mulVec Matrix.dotProduct
    simp only [Finset.mul_sum]
    rw [Finset.sum_comm]
    refine Finset.sum_congr rfl fun j _ => ?_
    rw [Finset.sum_mul]
    refine Finset.sum_congr rfl fun i _ => ?_
    ring
  unfold legfit
  rw [hmom, Matrix.mulVec_mulVec, Matrix.adjugate_mul,
    Matrix.smul_mulVec_assoc, Matrix.one_mulVec, smul_smul,
    inv_mul_cancel₀ hdet, one_smul]

/-- Claim C1 as amended: the profile-to-poly-to-profile round trip is the
identity on every profile table whose non-amplitude columns are exact
Legendre series of the configured degrees and whose amplitude-weighted
Gram matrices are non-singular; the amplitude column always round-trips
verbatim.  On a generic profile table the round trip is a least squares
projection, not the identity. -/
theorem C1_round_trip (Nx deg : ℕ) (bounds : Fin 8 → OBnd)
    (P : Fin Nx → Fin 8 → ℚ)
    (hpoly : ∀ k : Fin 8, ¬ k.val = 0 →
      ∃ c : Fin (degOf deg k.val + 1) → ℚ,
        ∀ i : Fin Nx, P i k = ∑ j, c j * legP j.val (pixelAt Nx i.val))
    (hdet : ∀ k : Fin 8, ¬ k.val = 0 →
      (legGram Nx (fun i => pixelAt Nx i.val) (fun i => P i 0)
        (degOf deg k.val)).det ≠ 0) :
    from_poly_params_to_profile_params Nx deg bounds
      (from_profile_params_to_poly_params Nx deg P) false = P := by
  funext i k
  have hlen : Nx < (from_profile_params_to_poly_params Nx deg P).length := by
    rw [from_profile_length]
    omega
  by_cases hk : k.val = 0
  · have hk0 : k = 0 := Fin.ext hk
    subst hk0
    have h := profileRaw_amp Nx deg (from_profile_params_to_poly_params Nx deg P)
      i 0 rfl hlen
    have h2 : from_poly_params_to_profile_params Nx deg bounds
        (from_profile_params_to_poly_params Nx deg P) false i 0
        = (from_profile_params_to_poly_params Nx deg P).getD i.val 0 := h
    rw [h2, from_profile_getD_amp]
  · obtain ⟨c, hc⟩ := hpoly k hk
    have h := profileRaw_coef Nx deg (from_profile_params_to_poly_params Nx deg P)
      i k hk hlen
    have h2 : from_poly_params_to_profile_params Nx deg bounds
        (from_profile_params_to_poly_params Nx deg P) false i k
        = legvalL (pixelAt Nx i.val)
            (((from_profile_params_to_poly_params Nx deg P).drop
              (Nx + blockOff deg k.val)).take (degOf deg k.val + 1)) := h
    rw [h2, from_profile_block Nx deg P k hk]
    have hys : (fun i : Fin Nx => P i k)
        = fun i => ∑ j, c j * legP j.val (pixelAt Nx i.val) := funext hc
    rw [hys, legfit_exact Nx (degOf deg k.val) _ _ c (hdet k hk),
      legvalL_map_finRange]
    exact (hc i).symm

/-- All-ones profile table used as the witness input. -/
def onesTable : Fin 2 → Fin 8 → ℚ := fun _ _ => 1

/-- Witness for the amended claim C1: the all-ones profile table on two
columns with degree 0 satisfies both hypotheses and round-trips exactly. -/
theorem C1_witness :
    from_poly_params_to_profile_params 2 0 moffatGaussBoundsHard
      (from_profile_params_to_poly_params 2 0 onesTable) false = onesTable := by
  refine C1_round_trip 2 0 moffatGaussBoundsHard onesTable ?_ ?_
  · intro k hk
    refine ⟨fun _ => 1, fun i => ?_⟩
    fin_cases k
    all_goals try exact absurd rfl hk
    all_goals
      show (1 : ℚ) = ∑ j : Fin 1, (1 : ℚ) * legP j.val (pixelAt 2 i.val)
    all_goals
      rw [Fin.sum_univ_one]
      show (1 : ℚ) = 1 * legP 0 (pixelAt 2 i.val)
      rw [legP_zero, mul_one]
  · intro k hk
    fin_cases k
    all_goals try exact absurd rfl hk
    all_goals
      show (legGram 2 (fun i => pixelAt 2 i.val) (fun i => onesTable i 0)
        0).det ≠ 0
    all_goals
      rw [Matrix.det_fin_one (legGram 2 (fun i => pixelAt 2 i.val)
        (fun i => onesTable i 0) 0)]
      show (∑ i : Fin 2, onesTable i 0 ^ 2 * legP 0 (pixelAt 2 i.val) *
          legP 0 (pixelAt 2 i.val)) ≠ 0
      rw [Fin.sum_univ_two]
      norm_num [onesTable, legP_zero]

/-- Profile table refuting the stated round-trip claim: its x_mean column
[0, 0, 1] is not a degree-0 polynomial across the three columns. -/
def spikeTable : Fin 3 → Fin 8 → ℚ :=
  fun i k => if k.val = 0 then 1 else if k.val = 1 ∧ i.val = 2 then 1 else 0

/-- Counterexample to claim C1 as stated: the valid profile table
spikeTable (unit amplitudes, x_mean column [0, 0, 1], all other
parameters 0) does not round-trip: the degree-0 weighted Legendre fit of
the x_mean column is its mean 1/3, so the reconstructed x_mean at column 1
is 1/3, not 0. -/
theorem C1_counterexample :
    from_poly_params_to_profile_params 3 0 moffatGaussBoundsHard
        (from_profile_params_to_poly_params 3 0 spikeTable) false 1 1 = 1 / 3
      ∧ spikeTable 1 1 = 0 ∧ (1 / 3 : ℚ) ≠ 0 := by
  refine ⟨?_, by norm_num [spikeTable], by norm_num⟩
  have hk : ¬ ((1 : Fin 8)).val = 0 := by decide
  have hlen : (3 : ℕ) <
      (from_profile_params_to_poly_params 3 0 spikeTable).length := by
    rw [from_profile_length]
    omega
  have h := profileRaw_coef 3 0 (from_profile_params_to_poly_params 3 0 spikeTable)
    1 1 hk hlen
  have h2 : from_poly_params_to_profile_params 3 0 moffatGaussBoundsHard
      (from_profile_params_to_poly_params 3 0 spikeTable) false 1 1
      = legvalL (pixelAt 3 1)
          (((from_profile_params_to_poly_params 3 0 spikeTable).drop
            (3 + blockOff 0 ((1 : Fin 8)).val)).take (degOf 0 ((1 : Fin 8)).val + 1)) := h
  rw [h2, from_profile_block 3 0 spikeTable 1 hk, legvalL_map_finRange]
  show (∑ j : Fin 1,
      legfit 3 (fun i => pixelAt 3 i.val) (fun i => spikeTable i 0)
        (fun i => spikeTable i (1 : Fin 8)) 0 j * legP j.val (pixelAt 3 1))
    = 1 / 3
  rw [Fin.sum_univ_one]
  have hG : legGram 3 (fun i => pixelAt 3 i.val) (fun i => spikeTable i 0)
      0 0 0 = 3 := by
    show (∑ i : Fin 3, spikeTable i 0 ^ 2 * legP 0 (pixelAt 3 i.val) *
        legP 0 (pixelAt 3 i.val)) = 3
    rw [Fin.sum_univ_three]
    norm_num [spikeTable, legP_zero]
  have hm : legMoment 3 (fun i => pixelAt 3 i.val) (fun i => spikeTable i 0)
      (fun i => spikeTable i (1 : Fin 8)) 0 0 = 1 := by
    show (∑ i : Fin 3, spikeTable i 0 ^ 2 * legP 0 (pixelAt 3 i.val) *
        spikeTable i (1 : Fin 8)) = 1
    rw [Fin.sum_univ_three]
    norm_num [spikeTable, legP_zero]
  simp only [legfit, Pi.smul_apply, smul_eq_mul]
  rw [Matrix.det_fin_one (legGram 3 (fun i => pixelAt 3 i.val)
    (fun i => spikeTable i 0) 0)]
  rw [Matrix.adjugate_fin_one (legGram 3 (fun i => pixelAt 3 i.val)
    (fun i => spikeTable i 0) 0)]
  rw [Matrix.one_mulVec (legMoment 3 (fun i => pixelAt 3 i.val)
    (fun i => spikeTable i 0) (fun i => spikeTable i (1 : Fin 8)) 0)]
  rw [hG, hm]
  show (3 : ℚ)⁻¹ * 1 * legP 0 (pixelAt 3 1) = 1 / 3
  rw [legP_zero]
  norm_num

/-! ### Claim C4 -/

/-- Unfolded form of the 1D MoffatGauss kernel. -/
theorem mgKernel1D_eval {m : ℕ} (pixels : Fin (m + 2) → ℝ) (p : Fin 8 → ℝ)
    (j : Fin (m + 2)) :
    mgKernel1D pixels p j
      = (1 + (pixels j - p 2) * (pixels j - p 2) / (p 3 * p 3)) ^ (-(p 4))
        + p 5 * Real.exp
            (-((pixels j - p 2) * (pixels j - p 2) / (2 * p 6 * p 6))) := rfl

/-- Claim C4 as amended: for parameters that keep every division of the
branch well defined (gamma and stddev non-zero, and in the 2D branch a
non-zero analytic norm - at the excluded values the float code propagates
inf or NaN through np.clip), every entry returned by MoffatGauss.evaluate
lies in [0, saturation] whenever the saturation parameter is non-negative,
in both the 1D and the 2D branch; in the 1D branch the Riemann sum of the
returned array times the grid step equals the amplitude parameter exactly
whenever the kernel integral is non-zero and the clipping is inactive (the
normalised values already lie inside [0, saturation]).  When clipping
alters a value this normalisation can fail: the counterexample below shows
a valid in-bounds parameter vector where the returned integral is not the
amplitude. -/
theorem C4_evaluate_clip_normalization :
    (∀ (m : ℕ) (pixels : Fin (m + 2) → ℝ) (p : Fin 8 → ℝ),
      p 3 ≠ 0 → p 6 ≠ 0 → 0 ≤ p 7 →
      ∀ j, 0 ≤ mgEval1D pixels p j ∧ mgEval1D pixels p j ≤ p 7) ∧
      (∀ (nx ny : ℕ) (pixels : Fin 2 → Fin nx → Fin ny → ℝ) (p : Fin 8 → ℝ),
        p 3 ≠ 0 → p 6 ≠ 0 → mgNorm2D p ≠ 0 → 0 ≤ p 7 →
        ∀ j i, 0 ≤ mgEval2D pixels p j i ∧ mgEval2D pixels p j i ≤ p 7) ∧
      ∀ (m : ℕ) (pixels : Fin (m + 2) → ℝ) (p : Fin 8 → ℝ),
        p 3 ≠ 0 → p 6 ≠ 0 →
        mgIntegral1D pixels p ≠ 0 →
        (∀ j, 0 ≤ mgNorm1D pixels p j ∧ mgNorm1D pixels p j ≤ p 7) →
        (∑ j, mgEval1D pixels p j) * gridStep pixels = p 0 := by
  refine ⟨?_, ?_, ?_⟩
  · intro m pixels p _hg _hs h7 j
    unfold mgEval1D
    exact ⟨le_min (le_max_right _ _) h7, min_le_right _ _⟩
  · intro nx ny pixels p _hg _hs _hn h7 j i
    unfold mgEval2D
    exact ⟨le_min (le_max_right _ _) h7, min_le_right _ _⟩
  · intro m pixels p _hg _hs hI hin
    have hclip : ∀ j, mgEval1D pixels p j = mgNorm1D pixels p j := by
      intro j
      unfold mgEval1D
      rw [max_eq_left (hin j).1, min_eq_left (hin j).2]
    have hnorm : ∀ j, mgNorm1D pixels p j
        = mgKernel1D pixels p j * (p 0 / mgIntegral1D pixels p) := by
      intro j
      unfold mgNorm1D
      rw [if_pos hI]
    rw [Finset.sum_congr rfl fun j _ => hclip j,
      Finset.sum_congr rfl fun j _ => hnorm j, ← Finset.sum_mul]
    have hIdef : mgIntegral1D pixels p
        = (∑ j, mgKernel1D pixels p j) * gridStep pixels := rfl
    rw [hIdef] at hI ⊢
    have hS : (∑ j, mgKernel1D pixels p j) ≠ 0 := left_ne_zero_of_mul hI
    have hd : gridStep pixels ≠ 0 := right_ne_zero_of_mul hI
    field_simp
    ring

/-- Concrete pixel grid for the C4 witness. -/
def wpix : Fin 2 → ℝ := ![0, 1]

/-- Concrete parameter vector for the C4 witness: amplitude 1, centre 0,
gamma 1, alpha 2, eta_gauss 0, stddev 1, saturation 100. -/
def wpar : Fin 8 → ℝ := ![1, 0, 0, 1, 2, 0, 1, 100]

/-- Concrete one-by-one 2D coordinate pair array for the C4 witness. -/
def wpixB : Fin 2 → Fin 1 → Fin 1 → ℝ := fun _ _ _ => 0

/-- Witness for the amended claim C4 at concrete grids and parameters: the
clip bounds hold in both branches and the returned 1D Riemann sum is the
amplitude 1; all non-degeneracy hypotheses are discharged concretely. -/
theorem C4_witness :
    (0 ≤ mgEval1D wpix wpar 0 ∧ mgEval1D wpix wpar 0 ≤ wpar 7) ∧
      (0 ≤ mgEval2D wpixB wpar 0 0 ∧ mgEval2D wpixB wpar 0 0 ≤ wpar 7) ∧
      (∑ j, mgEval1D wpix wpar j) * gridStep wpix = wpar 0 := by
  have hp2 : wpar 2 = 0 := rfl
  have hp3 : wpar 3 = 1 := rfl
  have hp4 : wpar 4 = 2 := rfl
  have hp5 : wpar 5 = 0 := rfl
  have hp6 : wpar 6 = 1 := rfl
  have hp0 : wpar 0 = 1 := rfl
  have hp7 : wpar 7 = 100 := rfl
  have hx0 : wpix 0 = 0 := rfl
  have hx1 : wpix 1 = 1 := rfl
  have hk0 : mgKernel1D wpix wpar 0 = 1 := by
    rw [mgKernel1D_eval, hx0, hp2, hp3, hp4, hp5, hp6]
    rw [show ((0 : ℝ) - 0) * ((0 : ℝ) - 0) / (1 * 1) = 0 by norm_num]
    rw [show (1 : ℝ) + 0 = 1 by norm_num, Real.one_rpow]
    norm_num
  have hk1 : mgKernel1D wpix wpar 1 = 1 / 4 := by
    rw [mgKernel1D_eval, hx1, hp2, hp3, hp4, hp5, hp6]
    rw [show ((1 : ℝ) - 0) * ((1 : ℝ) - 0) / (1 * 1) = 1 by norm_num]
    rw [show (1 : ℝ) + 1 = 2 by norm_num]
    rw [show ((2 : ℝ)) ^ (-(2 : ℝ)) = 1 / 4 by
      rw [show (-(2 : ℝ)) = ((-2 : ℤ) : ℝ) by norm_num, Real.rpow_intCast]
      norm_num]
    norm_num
  have hdx : gridStep wpix = 1 := by
    show (1 : ℝ) - 0 = 1
    norm_num
  have hI : mgIntegral1D wpix wpar = 5 / 4 := by
    show (∑ j, mgKernel1D wpix wpar j) * gridStep wpix = 5 / 4
    rw [Fin.sum_univ_two, hk0, hk1, hdx]
    norm_num
  have hIne : mgIntegral1D wpix wpar ≠ 0 := by
    rw [hI]
    norm_num
  have hnorm : ∀ j, mgNorm1D wpix wpar j
      = mgKernel1D wpix wpar j * (4 / 5) := by
    intro j
    unfold mgNorm1D
    rw [if_pos hIne, hI, hp0]
    norm_num
  have hin : ∀ j, 0 ≤ mgNorm1D wpix wpar j ∧ mgNorm1D wpix wpar j ≤ wpar 7 := by
    intro j
    rw [hnorm j, hp7]
    fin_cases j
    · show 0 ≤ mgKernel1D wpix wpar 0 * (4 / 5)
          ∧ mgKernel1D wpix wpar 0 * (4 / 5) ≤ 100
      rw [hk0]
      norm_num
    · show 0 ≤ mgKernel1D wpix wpar 1 * (4 / 5)
          ∧ mgKernel1D wpix wpar 1 * (4 / 5) ≤ 100
      rw [hk1]
      norm_num
  have hg : wpar 3 ≠ 0 := by
    rw [hp3]
    norm_num
  have hs : wpar 6 ≠ 0 := by
    rw [hp6]
    norm_num
  have hn2 : mgNorm2D wpar ≠ 0 := by
    unfold mgNorm2D
    rw [hp3, hp4, hp5, hp6]
    rw [show Real.pi * 1 * 1 / ((2 : ℝ) - 1) + 0 * 2 * Real.pi * 1 * 1
        = Real.pi by norm_num]
    exact Real.pi_ne_zero
  exact ⟨C4_evaluate_clip_normalization.1 0 wpix wpar hg hs
      (by rw [hp7]; norm_num) 0,
    C4_evaluate_clip_normalization.2.1 1 1 wpixB wpar hg hs hn2
      (by rw [hp7]; norm_num) 0 0,
    C4_evaluate_clip_normalization.2.2 0 wpix wpar hg hs hIne hin⟩

/-- Concrete pixel grid for the C4 counterexample. -/
noncomputable def cpix : Fin 3 → ℝ := ![0, 1, 2]

/-- Concrete valid parameter vector for the C4 counterexample: amplitude 1,
centre 0, gamma 1/2, alpha 2, eta_gauss -9/10, stddev 2, saturation 100;
every value respects the hard bounds of MoffatGauss. -/
noncomputable def cpar : Fin 8 → ℝ := ![1, 0, 0, 1/2, 2, -(9/10), 2, 100]

set_option maxHeartbeats 2000000 in
/-- Counterexample to claim C4 as stated: at the valid parameters cpar the
normalised kernel is negative at the central pixel, the clip to
[0, saturation] removes that negative part, and the Riemann sum of the
returned array times the grid step is strictly larger than the amplitude,
hence not equal to it. -/
theorem C4_counterexample :
    (∑ j, mgEval1D cpix cpar j) * gridStep cpix ≠ cpar 0 := by
  have hp0 : cpar 0 = 1 := rfl
  have hp2 : cpar 2 = 0 := rfl
  have hp3 : cpar 3 = 1/2 := rfl
  have hp4 : cpar 4 = 2 := rfl
  have hp5 : cpar 5 = -(9/10) := rfl
  have hp6 : cpar 6 = 2 := rfl
  have hp7 : cpar 7 = 100 := rfl
  have hx0 : cpix 0 = 0 := rfl
  have hx1 : cpix 1 = 1 := rfl
  have hx2 : cpix 2 = 2 := rfl
  have h5 : ((5 : ℝ)) ^ (-(2 : ℝ)) = 1/25 := by
    rw [show (-(2 : ℝ)) = ((-2 : ℤ) : ℝ) by norm_num, Real.rpow_intCast]
    norm_num
  have h17 : ((17 : ℝ)) ^ (-(2 : ℝ)) = 1/289 := by
    rw [show (-(2 : ℝ)) = ((-2 : ℤ) : ℝ) by norm_num, Real.rpow_intCast]
    norm_num
  have hk0 : mgKernel1D cpix cpar 0 = 1/10 := by
    rw [mgKernel1D_eval, hx0, hp2, hp3, hp4, hp5, hp6]
    rw [show ((0 : ℝ) - 0) * ((0 : ℝ) - 0) / (1/2 * (1/2)) = 0 by norm_num]
    rw [show ((0 : ℝ) - 0) * ((0 : ℝ) - 0) / (2 * 2 * 2) = 0 by norm_num]
    rw [show (1 : ℝ) + 0 = 1 by norm_num, Real.one_rpow, neg_zero,
      Real.exp_zero]
    norm_num
  have hk1 : mgKernel1D cpix cpar 1
      = 1/25 - (9/10) * Real.exp (-(1/8) : ℝ) := by
    rw [mgKernel1D_eval, hx1, hp2, hp3, hp4, hp5, hp6]
    rw [show ((1 : ℝ) - 0) * ((1 : ℝ) - 0) / (1/2 * (1/2)) = 4 by norm_num]
    rw [show ((1 : ℝ) - 0) * ((1 : ℝ) - 0) / (2 * 2 * 2) = 1/8 by norm_num]
    rw [show (1 : ℝ) + 4 = 5 by norm_num, h5]
    ring
  have hk2 : mgKernel1D cpix cpar 2
      = 1/289 - (9/10) * Real.exp (-(1/2) : ℝ) := by
    rw [mgKernel1D_eval, hx2, hp2, hp3, hp4, hp5, hp6]
    rw [show ((2 : ℝ) - 0) * ((2 : ℝ) - 0) / (1/2 * (1/2)) = 16 by norm_num]
    rw [show ((2 : ℝ) - 0) * ((2 : ℝ) - 0) / (2 * 2 * 2) = 1/2 by norm_num]
    rw [show (1 : ℝ) + 16 = 17 by norm_num, h17]
    ring
  have hE1l : (7/8 : ℝ) ≤ Real.exp (-(1/8)) := by
    have h := Real.add_one_le_exp (-(1/8) : ℝ)
    linarith
  have hE2l : (1/2 : ℝ) ≤ Real.exp (-(1/2)) := by
    have h := Real.add_one_le_exp (-(1/2) : ℝ)
    linarith
  have hE1u : Real.exp (-(1/8) : ℝ) ≤ 8/9 := by
    rw [Real.exp_neg]
    have h9 : (9/8 : ℝ) ≤ Real.exp (1/8) := by
      have h := Real.add_one_le_exp ((1/8) : ℝ)
      linarith
    calc (Real.exp (1/8))⁻¹ ≤ ((9/8 : ℝ))⁻¹ :=
          inv_le_inv_of_le (by norm_num) h9
      _ = 8/9 := by norm_num
  have hE2u : Real.exp (-(1/2) : ℝ) ≤ 2/3 := by
    rw [Real.exp_neg]
    have h32 : (3/2 : ℝ) ≤ Real.exp (1/2) := by
      have h := Real.add_one_le_exp ((1/2) : ℝ)
      linarith
    calc (Real.exp (1/2))⁻¹ ≤ ((3/2 : ℝ))⁻¹ :=
          inv_le_inv_of_le (by norm_num) h32
      _ = 2/3 := by norm_num
  have hdx : gridStep cpix = 1 := by
    show (1 : ℝ) - 0 = 1
    norm_num
  have hIdef : mgIntegral1D cpix cpar
      = 1/10 + (1/25 - (9/10) * Real.exp (-(1/8) : ℝ))
        + (1/289 - (9/10) * Real.exp (-(1/2) : ℝ)) := by
    have h : mgIntegral1D cpix cpar
        = (∑ j, mgKernel1D cpix cpar j) * gridStep cpix := rfl
    rw [h, Fin.sum_univ_three, hk0, hk1, hk2, hdx, mul_one]
  have hIneg : mgIntegral1D cpix cpar < 0 := by
    rw [hIdef]
    linarith
  have hIle : mgIntegral1D cpix cpar ≤ -1 := by
    rw [hIdef]
    linarith
  have hIne : mgIntegral1D cpix cpar ≠ 0 := ne_of_lt hIneg
  have hnormj : ∀ j, mgNorm1D cpix cpar j
      = mgKernel1D cpix cpar j * (1 / mgIntegral1D cpix cpar) := by
    intro j
    unfold mgNorm1D
    rw [if_pos hIne, hp0]
  have huneg : 1 / mgIntegral1D cpix cpar < 0 := one_div_neg.mpr hIneg
  have huge : -1 ≤ 1 / mgIntegral1D cpix cpar := by
    rw [le_div_iff_of_neg hIneg]
    linarith
  have he0 : mgEval1D cpix cpar 0 = 0 := by
    have hv0 : mgNorm1D cpix cpar 0 < 0 := by
      rw [hnormj 0, hk0]
      exact mul_neg_of_pos_of_neg (by norm_num) huneg
    unfold mgEval1D
    rw [max_eq_right hv0.le, hp7]
    exact min_eq_left (by norm_num)
  have ha1neg : mgKernel1D cpix cpar 1 ≤ 0 := by
    rw [hk1]
    linarith
  have ha1ge : -(19/25 : ℝ) ≤ mgKernel1D cpix cpar 1 := by
    rw [hk1]
    linarith
  have ha2neg : mgKernel1D cpix cpar 2 ≤ 0 := by
    rw [hk2]
    linarith
  have ha2ge : -(3/5 : ℝ) ≤ mgKernel1D cpix cpar 2 := by
    rw [hk2]
    linarith
  have hbound : ∀ j, mgKernel1D cpix cpar j ≤ 0 →
      -1 ≤ mgKernel1D cpix cpar j → mgEval1D cpix cpar j = mgNorm1D cpix cpar j := by
    intro j hneg hge
    have hv : 0 ≤ mgNorm1D cpix cpar j := by
      rw [hnormj j]
      have heq0 : mgKernel1D cpix cpar j * (1 / mgIntegral1D cpix cpar)
          = (-(mgKernel1D cpix cpar j)) * (-(1 / mgIntegral1D cpix cpar)) := by
        ring
      rw [heq0]
      exact mul_nonneg (by linarith) (by linarith)
    have hvle : mgNorm1D cpix cpar j ≤ 100 := by
      rw [hnormj j]
      have heq : mgKernel1D cpix cpar j * (1 / mgIntegral1D cpix cpar)
          = (-(mgKernel1D cpix cpar j)) * (-(1 / mgIntegral1D cpix cpar)) := by
        ring
      rw [heq]
      have hub : (-(mgKernel1D cpix cpar j)) * (-(1 / mgIntegral1D cpix cpar))
          ≤ 1 * 1 :=
        mul_le_mul (by linarith) (by linarith) (by linarith) (by norm_num)
      linarith
    unfold mgEval1D
    rw [max_eq_left hv, hp7]
    exact min_eq_left hvle
  have he1 : mgEval1D cpix cpar 1 = mgNorm1D cpix cpar 1 :=
    hbound 1 ha1neg (by linarith)
  have he2 : mgEval1D cpix cpar 2 = mgNorm1D cpix cpar 2 :=
    hbound 2 ha2neg (by linarith)
  rw [Fin.sum_univ_three, he0, he1, he2, hdx, mul_one, hp0]
  rw [hnormj 1, hnormj 2, hk1, hk2]
  intro heq
  have hsum : (1/25 - (9/10) * Real.exp (-(1/8) : ℝ))
        * (1 / mgIntegral1D cpix cpar)
      + (1/289 - (9/10) * Real.exp (-(1/2) : ℝ))
        * (1 / mgIntegral1D cpix cpar) = 1 := by
    linarith [heq]
  have hfact : (mgIntegral1D cpix cpar - 1/10) * (1 / mgIntegral1D cpix cpar)
      = 1 := by
    calc (mgIntegral1D cpix cpar - 1/10) * (1 / mgIntegral1D cpix cpar)
        = (1/25 - (9/10) * Real.exp (-(1/8) : ℝ))
            * (1 / mgIntegral1D cpix cpar)
          + (1/289 - (9/10) * Real.exp (-(1/2) : ℝ))
            * (1 / mgIntegral1D cpix cpar) := by
          rw [hIdef]
          ring
      _ = 1 := hsum
  field_simp at hfact
  linarith [hfact]

end Spectractor
